import Mathlib

/-!
Shallow embedding of the Convex_Optimization_Price_Model repository
(`src/core/check_data_convex.py`, `src/core/dataset_operations.py`,
`src/core/optimizer.py`, `src/config.py`) and proofs about it.

Modelling conventions:
* Python floats are modelled as exact rationals (`ℚ`); the numeric literals
  of the source (`1e-8`, `1e-9`, `0.80`, `0.001`) become the corresponding
  rationals.
* `numpy` array operations become list operations; `np.argsort`-based
  reordering becomes a stable sort by the key (ties between equal prices keep
  their original order).
* `scipy.spatial.ConvexHull` (qhull) is modelled by an exact 2-D convex-hull
  computation (Andrew's monotone chain, strict turns, so exactly the extreme
  points are reported, as qhull does); qhull's `QhullError` on degenerate
  input (fewer than three distinct points, or all points collinear) is
  modelled by returning `none`.
* `np.interp` is modelled by `interp` below (clamping outside the knot range,
  linear between knots).
* A Python function that can raise returns `Except PyExc _`; a `try/except`
  wrapper turns the error into the handler's result.
* The external solver `cvxpy` is not part of the repository: a call to
  `problem.solve()` is modelled by an abstract `SolverOutcome` parameter
  (either the call raises or it finishes with a status string, an optional
  variable value and an optional objective value).
-/

-- The core `Rat` operations are `@[irreducible]`, which blocks `decide`'s
-- elaboration-time evaluation (the kernel itself reduces them fine).  Make
-- them semireducible locally so that concrete rational computations can be
-- settled by `decide`.
set_option allowUnsafeReducibility true
attribute [local semireducible] Rat.add Rat.sub Rat.neg Rat.mul Rat.inv Rat.div Rat.blt

namespace PriceModel

/-- `np.diff`: consecutive differences, `out[i] = a[i+1] - a[i]`. -/
def diffs (l : List ℚ) : List ℚ :=
  List.zipWith (fun a b => b - a) l l.tail

/-- Insert `x` into `l` keeping elements that are strictly smaller (per `lt`)
in front; used to build a stable insertion sort. -/
def insertBy (lt : α → α → Bool) (x : α) : List α → List α
  | [] => [x]
  | y :: ys => if lt y x then y :: insertBy lt x ys else x :: y :: ys

/-- Stable insertion sort: ties keep their original relative order (model of
a stable `np.argsort`-based reordering). -/
def sortBy (lt : α → α → Bool) (l : List α) : List α :=
  l.foldr (insertBy lt) []

/-- Order on (price, value) pairs by price only. -/
def fstLt (a b : ℚ × ℚ) : Bool := decide (a.1 < b.1)

/-- Lexicographic order on points, used to prepare monotone-chain input. -/
def lexLt (a b : ℚ × ℚ) : Bool := decide (a.1 < b.1 ∨ (a.1 = b.1 ∧ a.2 < b.2))

/-! ## CurveClassifier (`src/core/check_data_convex.py`, `DatasetConvexityChecker`) -/

/-- The verdict of `DatasetConvexityChecker.check_curvature` (the source
returns a dict with one of these message strings). -/
inductive Verdict where
  /-- "Cannot calculate curvature due to insufficient distinct price changes" -/
  | cannotCalculate
  /-- "Insufficient data for curvature analysis (need at least 2 slopes)" -/
  | insufficientSlopes
  /-- "Insufficient data for curvature analysis (no curvature points)" -/
  | noCurvaturePoints
  /-- "Concave (Perfect Hill Shape) - Maximization" -/
  | concaveV
  /-- "Convex (Perfect Bowl Shape) - Minimization" -/
  | convexV
  /-- "Mostly Concave (… points <= 0)" with the fraction of points `≤ 0`. -/
  | mostlyConcave (pct : ℚ)
  /-- "Mostly Convex (… points >= 0)" with the fraction of points `≥ 0`. -/
  | mostlyConvex (pct : ℚ)
  /-- "Non-Convex (Mixed/Bumpy)" -/
  | mixed
deriving DecidableEq, Repr

/-- Revenue pairs `(price, price*demand)` sorted by price (steps 1–2 of
`check_curvature`: `revenue = prices*demands`, then reorder by
`np.argsort(prices)`). -/
def revenuePairs (prices demands : List ℚ) : List (ℚ × ℚ) :=
  sortBy fstLt (List.zipWith (fun p d => (p, p * d)) prices demands)

/-- Step 3 of `check_curvature`: slopes `dy/dx` of the price-sorted revenue
series, with pairs where `dx == 0` dropped. -/
def slopesOf (prices demands : List ℚ) : List ℚ :=
  let pairs := revenuePairs prices demands
  let dx := diffs (pairs.map Prod.fst)
  let dy := diffs (pairs.map Prod.snd)
  ((dy.zip dx).filter (fun q => decide (q.2 ≠ 0))).map (fun q => q.1 / q.2)

/-- Step 4 of `check_curvature`: the discrete second-difference (curvature)
series `np.diff(slopes)`. -/
def curvatureSeries (prices demands : List ℚ) : List ℚ :=
  diffs (slopesOf prices demands)

/-- `DatasetConvexityChecker.CONCAVITY_TOLERANCE = CONVEXITY_TOLERANCE = 0.80`. -/
def curvatureTolerance : ℚ := 4 / 5

/-- `DatasetConvexityChecker.check_curvature`, translated step by step from
`src/core/check_data_convex.py`. -/
def check_curvature (prices demands : List ℚ) : Verdict :=
  let pairs := revenuePairs prices demands
  let dx := diffs (pairs.map Prod.fst)
  if dx.all (fun d => decide (d = 0)) then
    -- `not np.any(non_zero_dx_mask)`: all prices equal (or fewer than 2 points)
    .cannotCalculate
  else
    let slopes := slopesOf prices demands
    if slopes.length < 2 then .insufficientSlopes
    else
      let curv := curvatureSeries prices demands
      if curv.length = 0 then .noCurvaturePoints
      else
        let total : ℚ := curv.length
        let pctConcave : ℚ := (curv.filter (fun c => decide (c ≤ 0))).length / total
        let pctConvex : ℚ := (curv.filter (fun c => decide (0 ≤ c))).length / total
        if curv.all (fun c => decide (c ≤ 0)) then .concaveV
        else if curv.all (fun c => decide (0 ≤ c)) then .convexV
        else if curvatureTolerance ≤ pctConcave then .mostlyConcave pctConcave
        else if curvatureTolerance ≤ pctConvex then .mostlyConvex pctConvex
        else .mixed

/-! ## Convex hull geometry (model of `scipy.spatial.ConvexHull` + `np.interp`) -/

/-- Cross product of `a - o` and `b - o`; positive for a left (counter-clockwise)
turn `o → a → b`. -/
def crossVal (o a b : ℚ × ℚ) : ℚ :=
  (a.1 - o.1) * (b.2 - o.2) - (a.2 - o.2) * (b.1 - o.1)

/-- Drop exact duplicates from a lexicographically sorted point list. -/
def dedupSorted : List (ℚ × ℚ) → List (ℚ × ℚ)
  | [] => []
  | [x] => [x]
  | x :: y :: rest =>
    if x = y then dedupSorted (y :: rest) else x :: dedupSorted (y :: rest)

/-- True when the whole point set is collinear (this includes point sets with
fewer than three distinct points); qhull raises `QhullError` on such input. -/
def collinearAll (pts : List (ℚ × ℚ)) : Bool :=
  match pts with
  | [] => true
  | a :: rest =>
    match rest.find? (fun x => decide (x ≠ a)) with
    | none => true
    | some b => pts.all (fun c => decide (crossVal a b c = 0))

/-- One step of Andrew's monotone chain: push `p`, popping while the turn
through the last two chain points is not strict (per `pop`).  The chain is
kept in reverse order (most recent point first). -/
def chainPush (pop : ℚ → Bool) : List (ℚ × ℚ) → ℚ × ℚ → List (ℚ × ℚ)
  | b :: a :: rest, p =>
    if pop (crossVal a b p) then chainPush pop (a :: rest) p else p :: b :: a :: rest
  | ch, p => p :: ch

/-- Monotone-chain pass over lexicographically sorted points. -/
def buildChain (pop : ℚ → Bool) (pts : List (ℚ × ℚ)) : List (ℚ × ℚ) :=
  (pts.foldl (chainPush pop) []).reverse

/-- The lower hull chain (keeps strict left turns). -/
def lowerChain (pts : List (ℚ × ℚ)) : List (ℚ × ℚ) :=
  buildChain (fun q => decide (q ≤ 0)) pts

/-- The upper hull chain (keeps strict right turns). -/
def upperChain (pts : List (ℚ × ℚ)) : List (ℚ × ℚ) :=
  buildChain (fun q => decide (0 ≤ q)) pts

/-- Model of `ConvexHull(points)` followed by
`hull_points[np.argsort(hull_points[:, 0])]`: the set of hull vertices
(extreme points), sorted by price.  `none` models qhull's `QhullError` on
degenerate input. -/
def hullVerticesByPrice (pts : List (ℚ × ℚ)) : Option (List (ℚ × ℚ)) :=
  let s := dedupSorted (sortBy lexLt pts)
  if s.length < 3 then none
  else if collinearAll s then none
  else
    let lo := lowerChain s
    let up := upperChain s
    some (sortBy fstLt (lo ++ up.filter (fun p => !(lo.contains p))))

/-- Model of `np.interp x xs fp` for knots sorted by (distinct) first
coordinate: clamp outside the range, interpolate linearly inside. -/
def interp (x : ℚ) : List (ℚ × ℚ) → ℚ
  | [] => 0
  | [k] => k.2
  | k1 :: k2 :: rest =>
    if x ≤ k1.1 then k1.2
    else if x ≤ k2.1 then k1.2 + (x - k1.1) * (k2.2 - k1.2) / (k2.1 - k1.1)
    else interp x (k2 :: rest)

/-! ## Dataset (`src/core/dataset_operations.py`) -/

/-- The mutable state of a `Dataset` object.  `snapshot` packages the two
fields `_previous_revenue_before_nonconvex` / `_previous_demands_before_nonconvex`
(the source always sets and clears them together). -/
structure Dataset where
  prices : List ℚ
  demands : List ℚ
  revenue : List ℚ
  dataset : List (ℚ × ℚ)
  hull_points : Option (List (ℚ × ℚ))
  hull_revenue : Option (List ℚ)
  curvature : Option String
  snapshot : Option (List ℚ × List ℚ)
deriving DecidableEq, Repr

/-- `Dataset.__init__`. -/
def Dataset.init (prices demands : List ℚ) : Dataset :=
  let revenue := List.zipWith (· * ·) prices demands
  { prices := prices
    demands := demands
    revenue := revenue
    dataset := prices.zip revenue
    hull_points := none
    hull_revenue := none
    curvature := none
    snapshot := none }

/-- The record returned by `check_dataset_convexity_convex_hull` (the `hull`
and `vertices` entries are kept as the vertex count). -/
structure HullInfo where
  is_convex : Bool
  n_vertices : Nat
  n_points : Nat
deriving DecidableEq, Repr

/-- `Dataset.check_dataset_convexity_convex_hull`.  On qhull failure the
`except` clause returns `None` and the object's fields are left untouched. -/
def check_dataset_convexity_convex_hull (ds : Dataset) :
    Dataset × Option HullInfo :=
  match hullVerticesByPrice ds.dataset with
  | none => (ds, none)
  | some hp =>
    let hr := ds.prices.map (fun x => interp x hp)
    let isConvex := (ds.revenue.zip hr).all
      (fun q => decide (q.1 ≤ q.2 + 1 / 100000000))
    ({ ds with
        hull_points := some hp
        hull_revenue := some hr
        curvature := some (if isConvex then "CONVEX" else "NOT CONVEX") },
     some { is_convex := isConvex, n_vertices := hp.length,
            n_points := ds.dataset.length })

/-- Equality on `Except` is decidable when it is on both components (used to
settle concrete evaluations by `decide`). -/
instance exceptDecEq {ε α : Type} [DecidableEq ε] [DecidableEq α] :
    DecidableEq (Except ε α)
  | .error e, .error f => decidable_of_iff (e = f) (by simp)
  | .error _, .ok _ => isFalse (by simp)
  | .ok _, .error _ => isFalse (by simp)
  | .ok a, .ok b => decidable_of_iff (a = b) (by simp)

/-- Python exceptions that escape a modelled call. -/
inductive PyExc where
  /-- `AttributeError`, e.g. `None.solve()`. -/
  | attributeError
  /-- `TypeError`, e.g. arithmetic on `None`. -/
  | typeError
  /-- `NameError`/`UnboundLocalError`: a local read before assignment. -/
  | nameError
  /-- The external solver raised (`cvxpy.error.SolverError` or similar). -/
  | solverError
deriving DecidableEq, Repr

/-- `Dataset.make_convex`.  The hull is recomputed only when one of the two
hull fields is absent; the revenue is then replaced with the *stored*
`hull_revenue` (stale or not).  If after the conditional recomputation
`hull_revenue` is still `None`, the assignment `demands = None / (prices + 1e-9)`
raises a `TypeError` (modelled as `.error`; the partially mutated Python
object is not tracked on that path, no caller of the core catches it). -/
def make_convex (ds : Dataset) : Except PyExc (Dataset × Nat) :=
  let ds1 :=
    if ds.hull_points.isNone || ds.hull_revenue.isNone then
      (check_dataset_convexity_convex_hull ds).1
    else ds
  match ds1.hull_revenue with
  | none => .error .typeError
  | some hr =>
    let demands := List.zipWith (fun r p => r / (p + 1 / 1000000000)) hr ds1.prices
    let ds2 := { ds1 with
      revenue := hr
      demands := demands
      dataset := ds1.prices.zip hr }
    .ok ((check_dataset_convexity_convex_hull ds2).1, ds1.prices.length)

/-- `Dataset.make_nonconvex`.  `sinf` stands for the external `np.sin`;
defaults in the source are `amplitude = 500`, `frequency_factor = 2`. -/
def make_nonconvex (sinf : ℚ → ℚ) (amplitude freq : ℚ) (ds : Dataset) :
    Dataset × Nat :=
  let revenue := List.zipWith (fun r p => r + amplitude * sinf (p / freq))
    ds.revenue ds.prices
  let demands := List.zipWith (fun r p => r / (p + 1 / 1000000000)) revenue ds.prices
  let ds1 := { ds with
    snapshot := some (ds.revenue, ds.demands)
    revenue := revenue
    demands := demands
    dataset := ds.prices.zip revenue }
  ((check_dataset_convexity_convex_hull ds1).1, ds.prices.length)

/-- The two statuses `restore_from_nonconvex` can return. -/
inductive RestoreStatus where
  /-- "dataset restored and made convex" -/
  | restored
  /-- "No previous non-convex state to restore from." -/
  | noPrevious
deriving DecidableEq, Repr

/-- `Dataset.restore_from_nonconvex`: put the snapshot back, re-run
`make_convex`, clear the snapshot; no-op when no snapshot exists. -/
def restore_from_nonconvex (ds : Dataset) :
    Except PyExc (Dataset × RestoreStatus) :=
  match ds.snapshot with
  | none => .ok (ds, .noPrevious)
  | some (r0, d0) =>
    let ds1 := { ds with revenue := r0, demands := d0, dataset := ds.prices.zip r0 }
    match make_convex ds1 with
    | .error e => .error e
    | .ok (ds2, _) => .ok ({ ds2 with snapshot := none }, .restored)

/-! ## PricingModel (`src/core/optimizer.py`, configuration from `src/config.py`) -/

/-- The configuration dataclass `Params` of `src/config.py`. -/
structure ConfigParams where
  ALPHA : ℚ
  BETA : ℚ
  MAX_PRICE : ℚ
  MAX_CAPACITY : ℚ
  MIN_PROFIT_MARGIN : ℚ
  COST_PER_UNIT : ℚ
deriving DecidableEq, Repr

/-- The concrete values of `src/config.py`. -/
def configParams : ConfigParams :=
  { ALPHA := 1500, BETA := 2, MAX_PRICE := 600, MAX_CAPACITY := 1200
    MIN_PROFIT_MARGIN := 1 / 5, COST_PER_UNIT := 100 }

/-- The cvxpy constraint list built in `PricingModel.__init__`:
`[demand ≤ max_capacity, price ≤ max_price, price ≥ min_price, demand ≥ 0]`
with `demand = alpha - beta * price`.  The numeric parameters captured by
those constraint expressions are exactly these five fields. -/
structure FeasibleRegion where
  alpha : ℚ
  beta : ℚ
  max_capacity : ℚ
  max_price : ℚ
  min_price : ℚ
deriving DecidableEq, Repr

/-- Whether a cvxpy objective maximizes or minimizes. -/
inductive Sense where
  | maximize
  | minimize
deriving DecidableEq, Repr

/-- A cvxpy objective over the single variable `price`: sense together with
the coefficients of `price`, `price²` and `price³`. -/
structure Objective where
  sense : Sense
  c1 : ℚ
  c2 : ℚ
  c3 : ℚ
deriving DecidableEq, Repr

/-- A cvxpy problem: an objective over the shared feasible region. -/
structure Problem where
  objective : Objective
  constraints : FeasibleRegion
deriving DecidableEq, Repr

/-- The state of a `PricingModel` object. -/
structure PricingModel where
  alpha : ℚ
  beta : ℚ
  max_capacity : ℚ
  max_price : ℚ
  cost_per_unit : ℚ
  min_profit_margin : ℚ
  min_price : ℚ
  constraints : FeasibleRegion
  problem : Option Problem
  current_model_type : Option String
deriving DecidableEq, Repr

/-- `PricingModel.__init__`: parameters from the configuration,
`min_price = cost_per_unit / (1 - min_profit_margin)`, the constraint list
built once from these initial values, no problem built yet. -/
def PricingModel.init (cfg : ConfigParams) : PricingModel :=
  let minp := cfg.COST_PER_UNIT / (1 - cfg.MIN_PROFIT_MARGIN)
  { alpha := cfg.ALPHA
    beta := cfg.BETA
    max_capacity := cfg.MAX_CAPACITY
    max_price := cfg.MAX_PRICE
    cost_per_unit := cfg.COST_PER_UNIT
    min_profit_margin := cfg.MIN_PROFIT_MARGIN
    min_price := minp
    constraints :=
      { alpha := cfg.ALPHA, beta := cfg.BETA, max_capacity := cfg.MAX_CAPACITY
        max_price := cfg.MAX_PRICE, min_price := minp }
    problem := none
    current_model_type := none }

/-- `PricingModel._build_concave_model`: objective
`Maximize(alpha*price - beta*price²)` over the stored constraint list. -/
def build_concave_model (m : PricingModel) : PricingModel :=
  { m with
    problem := some { objective := { sense := .maximize, c1 := m.alpha, c2 := -m.beta, c3 := 0 }
                      constraints := m.constraints }
    current_model_type := some "concave" }

/-- `PricingModel.build_convex_model`: objective
`Minimize(-alpha*price + beta*price²)` over the stored constraint list. -/
def build_convex_model (m : PricingModel) : PricingModel :=
  { m with
    problem := some { objective := { sense := .minimize, c1 := -m.alpha, c2 := m.beta, c3 := 0 }
                      constraints := m.constraints }
    current_model_type := some "convex" }

/-- `PricingModel.build_nonconvex_model`: objective
`Maximize(alpha*price - beta*price² + 0.001*price³)` over the stored
constraint list. -/
def build_nonconvex_model (m : PricingModel) : PricingModel :=
  { m with
    problem := some { objective := { sense := .maximize, c1 := m.alpha, c2 := -m.beta, c3 := 1 / 1000 }
                      constraints := m.constraints }
    current_model_type := some "nonconvex_nonconcave" }

/-- `PricingModel.restore_convex_model` (an alias for `build_convex_model`;
the source discards the return value, the state change is the same). -/
def restore_convex_model (m : PricingModel) : PricingModel :=
  build_convex_model m

/-- The observable outcome of the external call `self.problem.solve()`:
either the solver raises, or it finishes leaving a status string, an optional
variable value `price.value` and an optional objective value `problem.value`. -/
inductive SolverOutcome where
  | raises
  | finishes (status : String) (priceValue : Option ℚ) (objValue : Option ℚ)
deriving DecidableEq, Repr

/-- The result quadruple `[price.value, problem.value, final_demand, status]`. -/
def SolveResult := Option ℚ × Option ℚ × Option ℚ × String
deriving DecidableEq, Repr

/-- The body of the `try:` block shared by `solve_concave` and `solve_convex`:
`self.problem.solve()` (an `AttributeError` when no problem was built), then
`final_demand = self.alpha - self.beta * self.price.value` (a `TypeError`
when `price.value` is `None`, as after an infeasible/unbounded solve). -/
def solveBody (m : PricingModel) (o : SolverOutcome) : Except PyExc SolveResult :=
  match m.problem with
  | none => .error .attributeError
  | some _ =>
    match o with
    | .raises => .error .solverError
    | .finishes status pv obj =>
      match pv with
      | none => .error .typeError
      | some v => .ok (some v, obj, some (m.alpha - m.beta * v), status)

/-- `PricingModel.solve_concave`: the `try/except Exception` wrapper around
`solveBody`.  The outer `Except` layer is what escapes to the caller; the
handler returns `[None, None, None, "Failed"]` for every exception, so the
result is always `.ok`. -/
def solve_concave (m : PricingModel) (o : SolverOutcome) : Except PyExc SolveResult :=
  match solveBody m o with
  | .ok r => .ok r
  | .error _ => .ok (none, none, none, "Failed")

/-- `PricingModel.solve_convex`: identical to `solve_concave` except for the
printed messages. -/
def solve_convex (m : PricingModel) (o : SolverOutcome) : Except PyExc SolveResult :=
  match solveBody m o with
  | .ok r => .ok r
  | .error _ => .ok (none, none, none, "Failed")

/-- The record returned by `PricingModel.check_convexity_hessian`. -/
structure HessianResult where
  hessian_value : ℚ
  result : String
  is_concave : Bool
  is_convex : Bool
  suitable_for_maximization : Bool
deriving DecidableEq, Repr

/-- `PricingModel.check_convexity_hessian`: `hessian = -2 * self.beta`,
classified by sign.  When `hessian = 0` neither branch assigns the local
`result`, so the final `return` raises `UnboundLocalError` (modelled as
`.error .nameError`).  Note the computation never consults
`self.problem`/`self.current_model_type`. -/
def check_convexity_hessian (m : PricingModel) : Except PyExc HessianResult :=
  let h := -2 * m.beta
  if h < 0 then
    .ok { hessian_value := h, result := "CONCAVE"
          is_concave := true, is_convex := false, suitable_for_maximization := true }
  else if 0 < h then
    .ok { hessian_value := h, result := "CONVEX"
          is_concave := false, is_convex := true, suitable_for_maximization := false }
  else .error .nameError

/-! ## Shared concrete data -/

/-- The reference prices of the workflow/spec scenario. -/
def scenarioPrices : List ℚ := [5, 10, 15, 20, 25, 30, 35]

/-- The reference demands of the workflow/spec scenario. -/
def scenarioDemands : List ℚ := [115, 105, 92, 70, 50, 30, 10]

/-- The scenario dataset (revenue `[575, 1050, 1380, 1400, 1250, 900, 350]`). -/
def scenarioDataset : Dataset := Dataset.init scenarioPrices scenarioDemands

/-! ## Claim C2: solver failure is caught and turned into an all-absent result -/

/-- C2.  For every model state and every outcome of the external
`problem.solve()` call in which the solver either raises or finishes leaving
`price.value = None` (which is what cvxpy does on an infeasible or unbounded
status, in particular when `min_price > max_price`), both solve methods
return `[None, None, None, "Failed"]` — all three value fields absent and a
non-optimal status — and no exception escapes to the caller (the outer
`Except` is `.ok`). -/
theorem claim2_solver_failure_quiet (m : PricingModel) (o : SolverOutcome)
    (h : o = .raises ∨ ∃ s obj, o = .finishes s none obj) :
    solve_concave m o = .ok (none, none, none, "Failed") ∧
    solve_convex m o = .ok (none, none, none, "Failed") ∧
    "Failed" ≠ "optimal" := by
  refine ⟨?_, ?_, by decide⟩ <;>
    (rcases h with h | ⟨s, obj, h⟩ <;> subst h <;>
      rcases hp : m.problem with _ | p <;>
      simp [solve_concave, solve_convex, solveBody, hp])

/-- A configuration whose derived `min_price = 1000/(1 - 0.2) = 1250` exceeds
`max_price = 600`: the feasible region is empty. -/
def infeasibleConfig : ConfigParams :=
  { configParams with COST_PER_UNIT := 1000 }

/-- Witness for C2: the infeasible model (`min_price > max_price`), with the
solver finishing in status "infeasible" and `price.value = None`, yields the
quiet all-absent failure result. -/
theorem claim2_witness :
    (PricingModel.init infeasibleConfig).max_price <
      (PricingModel.init infeasibleConfig).min_price ∧
    solve_concave (build_concave_model (PricingModel.init infeasibleConfig))
      (.finishes "infeasible" none none) = .ok (none, none, none, "Failed") :=
  ⟨by decide,
   (claim2_solver_failure_quiet (build_concave_model (PricingModel.init infeasibleConfig))
      (.finishes "infeasible" none none) (Or.inr ⟨"infeasible", none, rfl⟩)).1⟩

/-! ## Claim C6: the Hessian diagnostic -/

/-- C6 counterexample.  After `build_convex_model` (state tag "convex",
`beta = 2` from the configuration) the claim expects the report `+2β = 4`;
the code reports `hessian_value = -4` with verdict "CONCAVE" (the function
never reads the built state). -/
theorem claim6_counterexample :
    (build_convex_model (PricingModel.init configParams)).current_model_type =
      some "convex" ∧
    (build_convex_model (PricingModel.init configParams)).beta = 2 ∧
    check_convexity_hessian (build_convex_model (PricingModel.init configParams)) =
      .ok { hessian_value := -4, result := "CONCAVE", is_concave := true,
            is_convex := false, suitable_for_maximization := true } ∧
    (-4 : ℚ) ≠ 2 * 2 := by
  refine ⟨rfl, rfl, by decide, by decide⟩

/-- C6 amended.  `check_convexity_hessian` always reports `-2β`, whatever was
built last (its result is invariant under all three build calls); it
classifies strictly by the sign of `-2β` (negative ⇒ "CONCAVE", positive ⇒
"CONVEX"), and when `β = 0` it raises `UnboundLocalError` instead of
classifying the objective as linear. -/
theorem claim6_hessian_state_independent (m : PricingModel) :
    (check_convexity_hessian (build_concave_model m) = check_convexity_hessian m ∧
     check_convexity_hessian (build_convex_model m) = check_convexity_hessian m ∧
     check_convexity_hessian (build_nonconvex_model m) = check_convexity_hessian m) ∧
    (0 < m.beta → check_convexity_hessian m =
      .ok { hessian_value := -2 * m.beta, result := "CONCAVE", is_concave := true,
            is_convex := false, suitable_for_maximization := true }) ∧
    (m.beta < 0 → check_convexity_hessian m =
      .ok { hessian_value := -2 * m.beta, result := "CONVEX", is_concave := false,
            is_convex := true, suitable_for_maximization := false }) ∧
    (m.beta = 0 → check_convexity_hessian m = .error .nameError) := by
  refine ⟨⟨rfl, rfl, rfl⟩, ?_, ?_, ?_⟩ <;> intro h <;>
    unfold check_convexity_hessian
  · rw [if_pos (show -2 * m.beta < 0 by linarith)]
  · rw [if_neg (show ¬ -2 * m.beta < 0 by linarith),
      if_pos (show (0 : ℚ) < -2 * m.beta by linarith)]
  · rw [if_neg (show ¬ -2 * m.beta < 0 by rw [h]; norm_num),
      if_neg (show ¬ (0 : ℚ) < -2 * m.beta by rw [h]; norm_num)]

/-- Witness for C6: at the configuration's `β = 2` the diagnostic reports
`-4` / "CONCAVE" (already, and also after every build). -/
theorem claim6_witness :
    check_convexity_hessian (PricingModel.init configParams) =
      .ok { hessian_value := -4, result := "CONCAVE", is_concave := true,
            is_convex := false, suitable_for_maximization := true } :=
  (claim6_hessian_state_independent (PricingModel.init configParams)).2.1 (by decide)

/-! ## Claim C7: solve() on an unbuilt model -/

/-- C7 counterexample.  On the freshly constructed model (`problem = None`)
both solve methods return the quiet failure quadruple
`(None, None, None, "Failed")` as an ordinary value — the `AttributeError`
from `None.solve()` is swallowed by `except Exception`; nothing fails fast. -/
theorem claim7_counterexample :
    (PricingModel.init configParams).problem = none ∧
    solve_concave (PricingModel.init configParams)
      (.finishes "optimal" (some 375) (some 281250)) =
      .ok (none, none, none, "Failed") ∧
    solve_convex (PricingModel.init configParams) .raises =
      .ok (none, none, none, "Failed") :=
  ⟨rfl, rfl, rfl⟩

/-- C7 amended.  Calling either solve method in the Unbuilt state is not a
fail-fast precondition violation: the `AttributeError` raised by
`self.problem.solve()` is caught by the blanket `except Exception`, and the
caller receives the ordinary all-absent failure result (status "Failed"),
indistinguishable from a solver failure. -/
theorem claim7_unbuilt_quiet_failure (m : PricingModel) (o : SolverOutcome)
    (h : m.problem = none) :
    solve_concave m o = .ok (none, none, none, "Failed") ∧
    solve_convex m o = .ok (none, none, none, "Failed") := by
  constructor <;> simp [solve_concave, solve_convex, solveBody, h]

/-- Witness for C7: the freshly initialized model is unbuilt and solving it
quietly returns the failure quadruple. -/
theorem claim7_witness :
    solve_concave (PricingModel.init configParams) .raises =
      .ok (none, none, none, "Failed") :=
  (claim7_unbuilt_quiet_failure (PricingModel.init configParams) .raises rfl).1

/-! ## Claim C8: the feasible region across builds -/

/-- C8 counterexample.  Reassigning `max_price := 50` after construction (as
the workflow does with `model.max_price = Params.MAX_PRICE`) and then
building: the built problem still carries the init-time region with
`max_price = 600` — the region is *not* recomputed from the current
parameter values at build time. -/
theorem claim8_counterexample :
    (build_concave_model
        { PricingModel.init configParams with max_price := 50 }).problem =
      some { objective := { sense := .maximize, c1 := 1500, c2 := -2, c3 := 0 }
             constraints := { alpha := 1500, beta := 2, max_capacity := 1200,
                              max_price := 600, min_price := 125 } } ∧
    (600 : ℚ) ≠ 50 := by
  refine ⟨by decide, by decide⟩

/-- C8 amended.  All three build calls attach the single constraint list
built once in `__init__` (`demand = α - β·price`, `demand ≤ capacity`,
`min_price ≤ price ≤ max_price`, `demand ≥ 0`, captured as the five numeric
parameters of `FeasibleRegion`), verbatim — but it is not recomputed on
build: reassigning `max_price`/`max_capacity` after construction has no
effect on the problem a subsequent build produces. -/
theorem claim8_shared_region (m : PricingModel) :
    ((build_concave_model m).problem.map Problem.constraints = some m.constraints ∧
     (build_convex_model m).problem.map Problem.constraints = some m.constraints ∧
     (build_nonconvex_model m).problem.map Problem.constraints = some m.constraints) ∧
    (∀ v w : ℚ,
      (build_concave_model { m with max_price := v, max_capacity := w }).problem =
        (build_concave_model m).problem ∧
      (build_convex_model { m with max_price := v, max_capacity := w }).problem =
        (build_convex_model m).problem) ∧
    (∀ cfg : ConfigParams, (PricingModel.init cfg).constraints =
      { alpha := cfg.ALPHA, beta := cfg.BETA, max_capacity := cfg.MAX_CAPACITY,
        max_price := cfg.MAX_PRICE,
        min_price := cfg.COST_PER_UNIT / (1 - cfg.MIN_PROFIT_MARGIN) }) :=
  ⟨⟨rfl, rfl, rfl⟩, fun _ _ => ⟨rfl, rfl⟩, fun _ => rfl⟩

/-! ## Claim C10: solve_concave and solve_convex are the same computation -/

/-- C10.  The two solve methods are extensionally identical (the source
bodies differ only in the printed message), neither consults
`current_model_type`, and after `build_convex_model` a successful
`solve_concave` returns the built (convex) problem's solver answer rather
than an error. -/
theorem claim10_solve_equivalence (m : PricingModel) (o : SolverOutcome) :
    solve_concave m o = solve_convex m o ∧
    (∀ t, solve_concave { m with current_model_type := t } o = solve_concave m o) ∧
    (∀ (s : String) (v : ℚ) (obj : Option ℚ),
      solve_concave (build_convex_model m) (.finishes s (some v) obj) =
        .ok (some v, obj, some (m.alpha - m.beta * v), s)) :=
  ⟨rfl, fun _ => rfl, fun _ _ _ => rfl⟩

/-! ## Claim C1: classification by the sign pattern of the curvature series -/

/-- `np.diff` of a list is one element shorter (empty input giving empty). -/
lemma diffs_length (l : List ℚ) : (diffs l).length = l.length - 1 := by
  simp only [diffs, List.length_zipWith, List.length_tail]
  omega

/-- When every first difference of the sorted prices is zero, no slope
survives the `dx != 0` filter. -/
lemma slopesOf_eq_nil_of_dx_zero (p d : List ℚ)
    (h : (diffs ((revenuePairs p d).map Prod.fst)).all (fun x => decide (x = 0)) = true) :
    slopesOf p d = [] := by
  unfold slopesOf
  rw [List.map_eq_nil_iff, List.filter_eq_nil_iff]
  intro a ha
  have h2 := (List.of_mem_zip ha).2
  have := List.all_eq_true.mp h a.2 h2
  simp only [decide_eq_true_eq] at this ⊢
  exact fun hne => hne this

/-- C1 amended.  Over the curvature series the code actually computes (sorted
by price, zero-`dx` pairs dropped), and given that at least two slopes exist
(so the series is nonempty): a uniformly non-positive series yields the
Concave verdict, and a uniformly non-negative series yields the Convex
verdict only when some entry is strictly positive — an all-zero series is
also uniformly non-negative but is classified Concave, because the `≤ 0`
test runs first.  The concrete scenario is classified Concave. -/
theorem claim1_curvature_classification :
    (∀ p d : List ℚ, 2 ≤ (slopesOf p d).length →
      ((∀ c ∈ curvatureSeries p d, c ≤ 0) → check_curvature p d = .concaveV) ∧
      ((∀ c ∈ curvatureSeries p d, 0 ≤ c) → (∃ c ∈ curvatureSeries p d, 0 < c) →
        check_curvature p d = .convexV)) ∧
    check_curvature scenarioPrices scenarioDemands = .concaveV := by
  refine ⟨?_, by decide⟩
  intro p d h2
  have hdx : ¬ ((diffs ((revenuePairs p d).map Prod.fst)).all
      (fun x => decide (x = 0)) = true) := by
    intro hall
    rw [slopesOf_eq_nil_of_dx_zero p d hall] at h2
    simp at h2
  have hlen : ¬ ((slopesOf p d).length < 2) := by omega
  have hclen : ¬ ((curvatureSeries p d).length = 0) := by
    unfold curvatureSeries
    rw [diffs_length]
    omega
  constructor
  · intro hall
    unfold check_curvature
    rw [if_neg hdx, if_neg hlen, if_neg hclen,
      if_pos (List.all_eq_true.mpr fun c hc => decide_eq_true_eq.mpr (hall c hc))]
  · intro hall ⟨c0, hc0, hc0pos⟩
    unfold check_curvature
    rw [if_neg hdx, if_neg hlen, if_neg hclen,
      if_neg (show ¬ ((curvatureSeries p d).all (fun c => decide (c ≤ 0)) = true) by
        intro hle
        have := decide_eq_true_eq.mp (List.all_eq_true.mp hle c0 hc0)
        linarith),
      if_pos (List.all_eq_true.mpr fun c hc => decide_eq_true_eq.mpr (hall c hc))]

/-- C1 counterexample.  A linear revenue curve: the curvature series is
`[0, 0]`, which is uniformly non-negative, yet the classifier answers
Concave, not Convex (the claim requires Convex for every uniformly
non-negative series). -/
theorem claim1_counterexample :
    curvatureSeries [1, 2, 3, 4] [1, 1, 1, 1] = [0, 0] ∧
    check_curvature [1, 2, 3, 4] [1, 1, 1, 1] = .concaveV ∧
    Verdict.concaveV ≠ Verdict.convexV := by
  refine ⟨by decide, by decide, by decide⟩

/-- Witness for C1: the scenario data has six slopes and a uniformly negative
curvature series, and the theorem's first branch classifies it Concave. -/
theorem claim1_witness :
    2 ≤ (slopesOf scenarioPrices scenarioDemands).length ∧
    check_curvature scenarioPrices scenarioDemands = .concaveV :=
  ⟨by decide,
   (claim1_curvature_classification.1 scenarioPrices scenarioDemands (by decide)).1
     (by decide)⟩

/-! ## Claim C9: the perturbation snapshot is single-use -/

/-- C9.  `restore_from_nonconvex` with no snapshot returns the no-op status
and the state completely unchanged; and whenever a restore succeeds with the
"restored" status, the resulting state's snapshot is cleared, so an
immediately following restore is the no-op. -/
theorem claim9_snapshot_single_use :
    (∀ ds : Dataset, ds.snapshot = none →
      restore_from_nonconvex ds = .ok (ds, .noPrevious)) ∧
    (∀ ds ds' : Dataset, restore_from_nonconvex ds = .ok (ds', .restored) →
      ds'.snapshot = none ∧ restore_from_nonconvex ds' = .ok (ds', .noPrevious)) := by
  constructor
  · intro ds h
    unfold restore_from_nonconvex
    rw [h]
  · intro ds ds' h
    rcases hs : ds.snapshot with _ | ⟨r0, d0⟩
    · simp only [restore_from_nonconvex, hs] at h
      simp at h
    · simp only [restore_from_nonconvex, hs] at h
      split at h
      · exact absurd h (by simp)
      · simp only [Except.ok.injEq, Prod.mk.injEq, and_true] at h
        subst h
        exact ⟨rfl, rfl⟩

/-- Witness for C9: the fresh scenario dataset has no snapshot and restoring
it is the no-op that leaves the state untouched. -/
theorem claim9_witness :
    (Dataset.init scenarioPrices scenarioDemands).snapshot = none ∧
    restore_from_nonconvex (Dataset.init scenarioPrices scenarioDemands) =
      .ok (Dataset.init scenarioPrices scenarioDemands, .noPrevious) :=
  ⟨rfl, claim9_snapshot_single_use.1 (Dataset.init scenarioPrices scenarioDemands) rfl⟩

/-! ## Claim C5: what the hull-based convexity check actually tests -/

/-- Boolean `all` over `revenue.zip (prices.map g)` says exactly that every
co-indexed (revenue, price) pair satisfies `r ≤ g p + tol`. -/
lemma all_zip_map_iff (rev pr : List ℚ) (g : ℚ → ℚ) (tol : ℚ) :
    ((rev.zip (pr.map g)).all (fun q => decide (q.1 ≤ q.2 + tol)) = true) ↔
      ∀ rp ∈ rev.zip pr, rp.1 ≤ g rp.2 + tol := by
  induction rev generalizing pr with
  | nil => simp
  | cons r rs ih =>
    cases pr with
    | nil => simp
    | cons p ps =>
      simp only [List.map_cons, List.zip_cons_cons, List.all_cons, Bool.and_eq_true,
        decide_eq_true_eq, List.mem_cons]
      constructor
      · rintro ⟨h1, h2⟩ rp (rfl | hrp)
        · exact h1
        · exact (ih ps).mp h2 rp hrp
      · intro h
        exact ⟨h (r, p) (Or.inl rfl), (ih ps).mpr fun rp hrp => h rp (Or.inr hrp)⟩

/-- C5 amended.  When the hull computation succeeds, `is_convex` is true iff
every observed revenue lies (within `1e-8`) at or below the piecewise-linear
interpolation through **all** hull vertices sorted by price — the polyline
through upper *and* lower hull vertices — not through the hull's upper
boundary alone. -/
theorem claim5_is_convex_iff_below_vertex_interpolation
    (ds : Dataset) (info : HullInfo)
    (h : (check_dataset_convexity_convex_hull ds).2 = some info) :
    ∃ hp, hullVerticesByPrice ds.dataset = some hp ∧
      (info.is_convex = true ↔
        ∀ rp ∈ ds.revenue.zip ds.prices, rp.1 ≤ interp rp.2 hp + 1 / 100000000) := by
  rcases hh : hullVerticesByPrice ds.dataset with _ | hp
  · simp only [check_dataset_convexity_convex_hull, hh] at h
    exact absurd h (by simp)
  · simp only [check_dataset_convexity_convex_hull, hh, Option.some.injEq] at h
    refine ⟨hp, rfl, ?_⟩
    rw [← h]
    exact all_zip_map_iff ds.revenue ds.prices (fun x => interp x hp) (1 / 100000000)

/-- The hull vertex list of the scenario dataset: the revenue curve is
strictly concave, so all seven points are hull vertices. -/
def scenarioHull : List (ℚ × ℚ) :=
  [(5, 575), (10, 1050), (15, 1380), (20, 1400), (25, 1250), (30, 900), (35, 350)]

/-- Witness for C5: on the scenario dataset the check succeeds with
`is_convex = true`, and via the theorem every revenue point lies below the
interpolated vertex polyline. -/
theorem claim5_witness :
    (check_dataset_convexity_convex_hull scenarioDataset).2 =
      some { is_convex := true, n_vertices := 7, n_points := 7 } ∧
    ∀ rp ∈ scenarioDataset.revenue.zip scenarioDataset.prices,
      rp.1 ≤ interp rp.2 scenarioHull + 1 / 100000000 := by
  have h := claim5_is_convex_iff_below_vertex_interpolation scenarioDataset
    { is_convex := true, n_vertices := 7, n_points := 7 } (by decide)
  obtain ⟨hp, hhp, hiff⟩ := h
  have hph : hp = scenarioHull := by
    have : hullVerticesByPrice scenarioDataset.dataset = some scenarioHull := by decide
    rw [this] at hhp
    exact (Option.some.injEq _ _).mp hhp.symm
  exact ⟨by decide, hph ▸ hiff.mp rfl⟩

/-- C5 counterexample.  Dataset `prices = [1,2,3,2]`, `demands = [12,1,4,2]`
(revenues `[12,2,12,4]`).  The hull's upper boundary is the segment from
`(1,12)` to `(3,12)`, and every revenue lies below it (so the claim's
interpolated-upper-envelope test says convex), yet the code interpolates
through all sorted hull vertices — dipping to the lower vertex `(2,2)` — and
reports `is_convex = false`. -/
theorem claim5_counterexample :
    upperChain (dedupSorted (sortBy lexLt (Dataset.init [1, 2, 3, 2] [12, 1, 4, 2]).dataset)) =
      [(1, 12), (3, 12)] ∧
    ((Dataset.init [1, 2, 3, 2] [12, 1, 4, 2]).revenue.zip
        ((Dataset.init [1, 2, 3, 2] [12, 1, 4, 2]).prices.map
          (fun x => interp x
            (upperChain (dedupSorted (sortBy lexLt
              (Dataset.init [1, 2, 3, 2] [12, 1, 4, 2]).dataset)))))).all
      (fun q => decide (q.1 ≤ q.2 + 1 / 100000000)) = true ∧
    (check_dataset_convexity_convex_hull (Dataset.init [1, 2, 3, 2] [12, 1, 4, 2])).2 =
      some { is_convex := false, n_vertices := 3, n_points := 4 } := by
  refine ⟨by decide, by decide, by decide⟩

/-! ## Claim C3: the perturb/restore/convexify round trip -/

/-- Rational stand-in for the external `np.sin` at the seven arguments
`price / 2` used by the scenario (values of `sin` to four decimal places;
the divergence below is by hundreds, far beyond this approximation and the
claim's `1e-8`). -/
def sinQ : ℚ → ℚ := fun x =>
  if x = 5 / 2 then 5985 / 10000
  else if x = 5 then -9589 / 10000
  else if x = 15 / 2 then 9380 / 10000
  else if x = 10 then -5440 / 10000
  else if x = 25 / 2 then -663 / 10000
  else if x = 15 then 6503 / 10000
  else if x = 35 / 2 then -9756 / 10000
  else 0

/-- Revenue after applying `make_convex` directly to the scenario dataset. -/
def claim3Direct : Option (List ℚ) :=
  (make_convex scenarioDataset).toOption.map fun q => q.1.revenue

/-- Revenue after `make_nonconvex` (defaults `amplitude = 500`,
`frequency_factor = 2`), `restore_from_nonconvex`, then `make_convex`. -/
def claim3Roundtrip : Option (List ℚ) :=
  (restore_from_nonconvex (make_nonconvex sinQ 500 2 scenarioDataset).1).toOption.bind
    fun r => (make_convex r.1).toOption.map fun f => f.1.revenue

/-- C3 evaluation.  Direct `make_convex` keeps the already-concave scenario
revenue `[575, 1050, 1380, 1400, 1250, 900, 350]`; the round trip instead
returns the interpolated hull envelope of the *perturbed* data
(`[874.25, 570.55, 1849, 1641.05, 1433.1, 1225.15, -137.8]`), because the
`make_convex` run inside `restore_from_nonconvex` reuses the stale
`hull_revenue` computed from the perturbed dataset.  The first elements
differ by `299.25`, far outside the claimed `1e-8`. -/
theorem claim3_stale_hull_roundtrip :
    claim3Direct = some [575, 1050, 1380, 1400, 1250, 900, 350] ∧
    claim3Roundtrip =
      some [3497 / 4, 11411 / 20, 1849, 32821 / 20, 14331 / 10, 24503 / 20, -689 / 5] ∧
    ¬ (3497 / 4 - 575 ≤ (1 : ℚ) / 100000000) := by
  refine ⟨by decide, by decide, by decide⟩

/-! ## Claim C4: groundwork — geometry of the monotone chains

`make_convex` is idempotent because re-hulling the points of the interpolated
hull polyline reproduces the same two chains.  The development below proves
this for the upper chain (`chainPush (0 ≤ ·)` on reversed chains) and
transfers it to the lower chain by negating ordinates.

All chain states are the *reversed* chains the fold produces (most recent
point first). -/

/-- Forward lists that are strictly increasing in the first coordinate. -/
def IncX : List (ℚ × ℚ) → Prop
  | a :: b :: t => a.1 < b.1 ∧ IncX (b :: t)
  | _ => True

/-- Reversed chain states are strictly decreasing in the first coordinate. -/
def DecX : List (ℚ × ℚ) → Prop
  | b :: a :: t => a.1 < b.1 ∧ DecX (a :: t)
  | _ => True

/-- Strict right turns along a reversed chain: for `[c, b, a, …]` the forward
triple `a, b, c` turns clockwise. -/
def RT : List (ℚ × ℚ) → Prop
  | c :: b :: a :: t => crossVal a b c < 0 ∧ RT (b :: a :: t)
  | _ => True

/-- `p` lies on or below every (forward) edge of the reversed chain:
for adjacent `b :: a :: _` the edge is `a → b` and `crossVal a b p ≤ 0`. -/
def ERle (p : ℚ × ℚ) : List (ℚ × ℚ) → Prop
  | b :: a :: t => crossVal a b p ≤ 0 ∧ ERle p (a :: t)
  | _ => True

/-- The pending-pair condition of the determination invariant: `T` lies on or
to the left of every directed edge of the reversed decoration chain. -/
def Pc (T : ℚ × ℚ) : List (ℚ × ℚ) → Prop
  | b :: a :: t => 0 ≤ crossVal a b T ∧ Pc T (a :: t)
  | _ => True

/-- The four-point linear relation between the cross products of `a, b, c`
and a fourth point `z` (the certificate behind the turn-composition lemmas). -/
lemma cross_linear_rel (a b c z : ℚ × ℚ) :
    (b.1 - a.1) * crossVal b c z + (z.1 - b.1) * crossVal a b c
      - (c.1 - b.1) * crossVal a b z = 0 := by
  simp only [crossVal]
  ring

/-- The three-cross relation for segments sharing the left endpoint `a`. -/
lemma cross_common_rel (a g z p : ℚ × ℚ) :
    (g.1 - a.1) * crossVal a z p - (z.1 - a.1) * crossVal a g p
      + (p.1 - a.1) * crossVal a g z = 0 := by
  simp only [crossVal]
  ring

/-- Turn composition: if `c` is strictly below the line `a b` and `z` is on or
below the line `b c`, then any such `z` to the right of `b` is strictly below
the line `a b`. -/
lemma cross_comp {a b c z : ℚ × ℚ} (hab : a.1 < b.1) (hbc : b.1 < c.1)
    (hbz : b.1 < z.1) (h1 : crossVal a b c < 0) (h2 : crossVal b c z ≤ 0) :
    crossVal a b z < 0 := by
  have hrel := cross_linear_rel a b c z
  nlinarith [mul_nonneg (le_of_lt (sub_pos.mpr hbz)) (neg_nonneg.mpr h2)]

/-- The crux of the determination invariant: if the push of `c` stops on top
of `b` (with `a` below), and the pending knot `t` is on or left of edge
`a → b`, then `t` is also on or left of the new edge `b → c`. -/
lemma cross_crux {a b c t : ℚ × ℚ} (hab : a.1 < b.1) (hbc : b.1 < c.1)
    (hct : c.1 < t.1) (h1 : crossVal a b c < 0) (h2 : 0 ≤ crossVal a b t) :
    0 ≤ crossVal b c t := by
  have hrel := cross_linear_rel a b c t
  nlinarith [mul_nonneg (le_of_lt (sub_pos.mpr (lt_trans hbc hct))) h2]

/-- New-edge domination below the stop point: a point `p` left of `b` that is
on or below edge `a → b` is on or below the new edge `b → z` when `z` is
strictly below the line `a b`. -/
lemma cross_newedge1 {a b z p : ℚ × ℚ} (hab : a.1 < b.1) (hbz : b.1 < z.1)
    (hpb : p.1 ≤ b.1) (h1 : crossVal a b z < 0) (h2 : crossVal a b p ≤ 0) :
    crossVal b z p ≤ 0 := by
  have hrel := cross_linear_rel a b z p
  nlinarith [mul_nonneg (le_of_lt (sub_pos.mpr hbz)) (neg_nonneg.mpr h2),
    mul_nonneg (sub_nonneg.mpr hpb) (neg_nonneg.mpr (le_of_lt h1))]

/-- New-edge domination via a popped edge: if `z` is on or above the old edge
`a → g` and `p` (right of `a`) is on or below it, then `p` is on or below the
new edge `a → z`. -/
lemma cross_newedge3 {a g z p : ℚ × ℚ} (hag : a.1 < g.1) (haz : a.1 < z.1)
    (hap : a.1 ≤ p.1) (h1 : 0 ≤ crossVal a g z) (h2 : crossVal a g p ≤ 0) :
    crossVal a z p ≤ 0 := by
  have hrel := cross_common_rel a g z p
  nlinarith [mul_nonneg (le_of_lt (sub_pos.mpr haz)) (neg_nonneg.mpr h2),
    mul_nonneg (sub_nonneg.mpr hap) h1]

/-- Cross products are affine in their third argument: a convex combination
of two points keeps any shared sign of the endpoints' cross products. -/
lemma cross_affine (e f v w : ℚ × ℚ) (θ : ℚ) :
    crossVal e f (((1 - θ) * v.1 + θ * w.1, (1 - θ) * v.2 + θ * w.2)) =
      (1 - θ) * crossVal e f v + θ * crossVal e f w := by
  simp only [crossVal]
  ring

/-- The pop test of the upper chain. -/
def popU : ℚ → Bool := fun q => decide (0 ≤ q)

/-- The pop test of the lower chain. -/
def popL : ℚ → Bool := fun q => decide (q ≤ 0)

lemma upperChain_eq (pts : List (ℚ × ℚ)) :
    upperChain pts = (pts.foldl (chainPush popU) []).reverse := rfl

lemma lowerChain_eq (pts : List (ℚ × ℚ)) :
    lowerChain pts = (pts.foldl (chainPush popL) []).reverse := rfl

lemma chainPush_nil (pop : ℚ → Bool) (p : ℚ × ℚ) : chainPush pop [] p = [p] := rfl

lemma chainPush_single (pop : ℚ → Bool) (a p : ℚ × ℚ) :
    chainPush pop [a] p = [p, a] := rfl

lemma chainPush_cons (pop : ℚ → Bool) (b a : ℚ × ℚ) (t : List (ℚ × ℚ)) (p : ℚ × ℚ) :
    chainPush pop (b :: a :: t) p =
      if pop (crossVal a b p) then chainPush pop (a :: t) p else p :: b :: a :: t := rfl

lemma crossVal_self (o a : ℚ × ℚ) : crossVal o a a = 0 := by
  simp only [crossVal]
  ring

lemma crossVal_swap (o a b : ℚ × ℚ) : crossVal o a b = -crossVal o b a := by
  simp only [crossVal]
  ring

lemma RT_tail {c : ℚ × ℚ} {t : List (ℚ × ℚ)} (h : RT (c :: t)) : RT t := by
  cases t with
  | nil => trivial
  | cons b t' =>
    cases t' with
    | nil => trivial
    | cons a t'' => exact h.2

lemma RT_suffix : ∀ {l σ : List (ℚ × ℚ)}, RT σ → l <:+ σ → RT l := by
  intro l σ h hsuf
  obtain ⟨pre, rfl⟩ := hsuf
  induction pre with
  | nil => exact h
  | cons x xs ih => exact ih (RT_tail h)

lemma ERle_tail {p c : ℚ × ℚ} {t : List (ℚ × ℚ)} (h : ERle p (c :: t)) : ERle p t := by
  cases t with
  | nil => trivial
  | cons a t' => exact h.2

lemma ERle_suffix : ∀ {p : ℚ × ℚ} {l σ : List (ℚ × ℚ)}, ERle p σ → l <:+ σ → ERle p l := by
  intro p l σ h hsuf
  obtain ⟨pre, rfl⟩ := hsuf
  induction pre with
  | nil => exact h
  | cons x xs ih => exact ih (ERle_tail h)

lemma DecX_tail : ∀ {c : ℚ × ℚ} {t : List (ℚ × ℚ)}, DecX (c :: t) → DecX t := by
  intro c t h
  cases t with
  | nil => trivial
  | cons a t' => exact h.2

/-- Laying `z` strictly below the top edge of a strictly concave reversed
chain puts it on or below every edge of the chain. -/
lemma ERle_of_top {z : ℚ × ℚ} : ∀ (t : List (ℚ × ℚ)) (b a : ℚ × ℚ),
    RT (b :: a :: t) → DecX (b :: a :: t) → crossVal a b z < 0 → b.1 < z.1 →
    ERle z (b :: a :: t) := by
  intro t
  induction t with
  | nil => exact fun b a _ _ htop _ => ⟨le_of_lt htop, trivial⟩
  | cons a' t' ih =>
    intro b a hrt hdec htop hbz
    refine ⟨le_of_lt htop, ?_⟩
    have hab : a'.1 < a.1 := hdec.2.1
    have hba : a.1 < b.1 := hdec.1
    have haz : a.1 < z.1 := lt_trans hba hbz
    exact ih a a' hrt.2 hdec.2
      (cross_comp hab hba haz hrt.1 (le_of_lt htop)) haz

/-- What a push cascade can produce: the result is `z` on a suffix of the old
chain; either nothing popped (and the stop condition names the old top pair),
or the last popped element `γ` sат directly on the surviving suffix and its pop
condition held.  In every case the stop condition holds for the new top pair. -/
lemma pushChar (z : ℚ × ℚ) : ∀ (σ : List (ℚ × ℚ)),
    ∃ σ₂, σ₂ <:+ σ ∧ chainPush popU σ z = z :: σ₂ ∧
      (σ₂ = σ ∨ ∃ γ α t₂, σ₂ = α :: t₂ ∧ (γ :: α :: t₂) <:+ σ ∧ 0 ≤ crossVal α γ z) ∧
      (∀ β α t₂, σ₂ = β :: α :: t₂ → crossVal α β z < 0) ∧
      (σ₂ = [] → σ = []) := by
  intro σ
  induction σ with
  | nil => exact ⟨[], List.nil_suffix, rfl, Or.inl rfl, by simp, fun _ => rfl⟩
  | cons b rest ih =>
    cases rest with
    | nil =>
      exact ⟨[b], List.suffix_refl _, rfl, Or.inl rfl, by simp, by simp⟩
    | cons a t =>
      rw [chainPush_cons]
      by_cases hc : popU (crossVal a b z)
      · rw [if_pos hc]
        obtain ⟨σ₂, hsuf, heq, hlast, hstop, hne⟩ := ih
        refine ⟨σ₂, hsuf.trans (List.suffix_cons _ _), heq, ?_, hstop,
          fun h => absurd (hne h) (by simp)⟩
        rcases hlast with rfl | ⟨γ, α, t₂, rfl, hsuf2, hpop⟩
        · exact Or.inr ⟨b, a, t, rfl, List.suffix_refl _,
            by simpa [popU] using hc⟩
        · exact Or.inr ⟨γ, α, t₂, rfl, hsuf2.trans (List.suffix_cons _ _), hpop⟩
      · rw [if_neg hc]
        refine ⟨b :: a :: t, List.suffix_refl _, rfl, Or.inl rfl, ?_, by simp⟩
        intro β α' t₂ heq
        injection heq with h1 h2
        injection h2 with h3 h4
        subst h1; subst h3
        simpa [popU, not_le] using hc

lemma DecX_suffix : ∀ {l σ : List (ℚ × ℚ)}, DecX σ → l <:+ σ → DecX l := by
  intro l σ h hsuf
  obtain ⟨pre, rfl⟩ := hsuf
  induction pre with
  | nil => exact h
  | cons x xs ih => exact ih (DecX_tail h)

lemma crossVal_right (o a : ℚ × ℚ) : crossVal o a o = 0 := by
  simp only [crossVal]
  ring

lemma getLast?_of_suffix {l σ : List (ℚ × ℚ)} (hsuf : l <:+ σ) (h : l ≠ []) :
    σ.getLast? = l.getLast? := by
  obtain ⟨pre, rfl⟩ := hsuf
  exact List.getLast?_append_of_ne_nil pre h

/-- Shape facts about a push: the new point tops the chain, every chain point
is old or new, and the bottom of a nonempty chain survives. -/
lemma pushStep_shape (σ : List (ℚ × ℚ)) (z : ℚ × ℚ) :
    (chainPush popU σ z).head? = some z ∧
    (∀ q ∈ chainPush popU σ z, q = z ∨ q ∈ σ) ∧
    (σ ≠ [] → (chainPush popU σ z).getLast? = σ.getLast?) := by
  obtain ⟨σ₂, hsuf, heq, _, _, hne⟩ := pushChar z σ
  rw [heq]
  refine ⟨rfl, ?_, ?_⟩
  · intro q hq
    rcases List.mem_cons.mp hq with rfl | hq2
    · exact Or.inl rfl
    · exact Or.inr (hsuf.subset hq2)
  · intro hσ
    have hσ₂ : σ₂ ≠ [] := fun h => hσ (hne h)
    rw [getLast?_of_suffix hsuf hσ₂]
    exact (List.getLast?_append_of_ne_nil [z] hσ₂).symm ▸ rfl

/-- A push preserves chain validity, and the new point lies on or below every
edge of the resulting chain. -/
lemma pushStep_valid (σ : List (ℚ × ℚ)) (z : ℚ × ℚ)
    (hdec : DecX σ) (hrt : RT σ) (hzgt : ∀ q ∈ σ, q.1 < z.1) :
    DecX (chainPush popU σ z) ∧ RT (chainPush popU σ z) ∧
    ERle z (chainPush popU σ z) := by
  obtain ⟨σ₂, hsuf, heq, _, hstop, _⟩ := pushChar z σ
  rw [heq]
  have hdec₂ := DecX_suffix hdec hsuf
  have hrt₂ := RT_suffix hrt hsuf
  cases σ₂ with
  | nil => exact ⟨trivial, trivial, trivial⟩
  | cons α t₂ =>
    have hαz : α.1 < z.1 := hzgt α (hsuf.subset (List.mem_cons_self _ _))
    cases t₂ with
    | nil =>
      exact ⟨⟨hαz, trivial⟩, trivial, by simpa [ERle] using le_of_eq (crossVal_self α z)⟩
    | cons α₂ t₃ =>
      have hst : crossVal α₂ α z < 0 := hstop α α₂ t₃ rfl
      refine ⟨⟨hαz, hdec₂⟩, ⟨hst, hrt₂⟩, ?_⟩
      exact ⟨le_of_eq (crossVal_self α z),
        ERle_of_top t₃ α α₂ hrt₂ hdec₂ hst hαz⟩

/-- A push keeps every previously dominated point dominated: the point must
be left of the old top, right of (or equal to) the bottom, and not higher
than a distinct point at the same abscissa as the bottom. -/
lemma pushStep_dom (σ : List (ℚ × ℚ)) (z p : ℚ × ℚ)
    (hdec : DecX σ) (hzgt : ∀ q ∈ σ, q.1 < z.1)
    (hple : ERle p σ)
    (htop : ∀ b, σ.head? = some b → p.1 ≤ b.1)
    (hbot : ∀ x, σ.getLast? = some x → x.1 ≤ p.1 ∧ (p.1 = x.1 → p = x)) :
    ERle p (chainPush popU σ z) := by
  obtain ⟨σ₂, hsuf, heq, hlast, hstop, _⟩ := pushChar z σ
  rw [heq]
  cases σ₂ with
  | nil => trivial
  | cons α t₂ =>
    have hmemα : α ∈ σ := hsuf.subset (List.mem_cons_self _ _)
    have hαz : α.1 < z.1 := hzgt α hmemα
    refine ⟨?_, ERle_suffix hple hsuf⟩
    rcases hlast with rfl | ⟨γ, α', t₂', heq2, hsuf2, hpop⟩
    · -- no pops: σ = α :: t₂
      have hpα : p.1 ≤ α.1 := htop α rfl
      cases t₂ with
      | nil =>
        have hx := hbot α rfl
        have hpeq : p = α := hx.2 (le_antisymm hpα hx.1)
        rw [hpeq]
        exact le_of_eq (crossVal_right α z)
      | cons α₂ t₃ =>
        exact cross_newedge1 hdec.1 hαz hpα (hstop α α₂ t₃ rfl) hple.1
    · -- some pops: last popped γ sat on α :: t₂
      injection heq2 with h1 h2
      subst h1; subst h2
      by_cases hpα : p.1 ≤ α.1
      · cases t₂ with
        | nil =>
          have hlastσ : σ.getLast? = some α := by
            rw [getLast?_of_suffix hsuf (by simp)]
            rfl
          have hx := hbot α hlastσ
          have hpeq : p = α := hx.2 (le_antisymm hpα hx.1)
          rw [hpeq]
          exact le_of_eq (crossVal_right α z)
        | cons α₂ t₃ =>
          have hd2 := DecX_suffix hdec hsuf
          exact cross_newedge1 hd2.1 hαz hpα (hstop α α₂ t₃ rfl) (ERle_suffix hple hsuf).1
      · push_neg at hpα
        have hαγ : α.1 < γ.1 := (DecX_suffix hdec hsuf2).1
        have hedge : crossVal α γ p ≤ 0 := (ERle_suffix hple hsuf2).1
        exact cross_newedge3 hαγ hαz (le_of_lt hpα) hpop hedge

lemma IncX_iff_chain : ∀ l : List (ℚ × ℚ),
    IncX l ↔ List.Chain' (fun a b : ℚ × ℚ => a.1 < b.1) l := by
  intro l
  induction l with
  | nil => simp [IncX]
  | cons a t ih =>
    cases t with
    | nil => simp [IncX]
    | cons b t' =>
      rw [List.chain'_cons]
      exact and_congr Iff.rfl ih

lemma IncX_tail : ∀ {c : ℚ × ℚ} {t : List (ℚ × ℚ)}, IncX (c :: t) → IncX t := by
  intro c t h
  cases t with
  | nil => trivial
  | cons a t' => exact h.2

instance fstLtTrans : IsTrans (ℚ × ℚ) (fun a b : ℚ × ℚ => a.1 < b.1) :=
  ⟨fun _ _ _ h1 h2 => lt_trans h1 h2⟩

lemma IncX_pairwise {l : List (ℚ × ℚ)} (h : IncX l) :
    l.Pairwise (fun a b => a.1 < b.1) :=
  List.chain'_iff_pairwise.mp ((IncX_iff_chain l).mp h)

lemma IncX_append_singleton {s : List (ℚ × ℚ)} {z : ℚ × ℚ}
    (h : IncX (s ++ [z])) : IncX s ∧ ∀ p ∈ s, p.1 < z.1 := by
  have hp := IncX_pairwise h
  rw [List.pairwise_append] at hp
  constructor
  · rw [IncX_iff_chain, List.chain'_iff_pairwise]
    exact hp.1
  · exact fun p hp2 => hp.2.2 p hp2 z (by simp)

/-- In a strictly x-increasing list the head is the strict minimum. -/
lemma head_min_of_IncX {s : List (ℚ × ℚ)} {p x : ℚ × ℚ} (h : IncX s)
    (hp : p ∈ s) (hx : s.head? = some x) : x.1 ≤ p.1 ∧ (p.1 = x.1 → p = x) := by
  cases s with
  | nil => cases hp
  | cons c t =>
    injection hx with hx
    subst hx
    rcases List.mem_cons.mp hp with rfl | hpt
    · exact ⟨le_refl _, fun _ => rfl⟩
    · have := (List.pairwise_cons.mp (IncX_pairwise h)).1 p hpt
      exact ⟨le_of_lt this, fun he => absurd he (by linarith)⟩

/-- In a strictly x-increasing list the last element is the maximum. -/
lemma getLast_max_of_IncX {s : List (ℚ × ℚ)} {p x : ℚ × ℚ} (h : IncX s)
    (hp : p ∈ s) (hx : s.getLast? = some x) : p.1 ≤ x.1 := by
  induction s using List.reverseRecOn with
  | nil => cases hp
  | append_singleton s₁ z _ =>
    rw [List.getLast?_append_of_ne_nil s₁ (by simp)] at hx
    simp only [List.getLast?_singleton, Option.some.injEq] at hx
    subst hx
    rcases List.mem_append.mp hp with hps | hpz
    · exact le_of_lt ((IncX_append_singleton h).2 p hps)
    · rw [List.mem_singleton.mp hpz]

/-- The combined invariant of the upper-chain fold over a strictly
x-increasing input: the reversed chain is valid, runs from the last input
point down to the first, consists of input points, and dominates every
input point from above. -/
lemma foldInv : ∀ (s : List (ℚ × ℚ)), IncX s →
    DecX (s.foldl (chainPush popU) []) ∧ RT (s.foldl (chainPush popU) []) ∧
    (s.foldl (chainPush popU) []).head? = s.getLast? ∧
    (s.foldl (chainPush popU) []).getLast? = s.head? ∧
    (∀ q ∈ s.foldl (chainPush popU) [], q ∈ s) ∧
    (∀ p ∈ s, ERle p (s.foldl (chainPush popU) [])) := by
  intro s
  induction s using List.reverseRecOn with
  | nil => exact fun _ => ⟨trivial, trivial, rfl, rfl, by simp, by simp⟩
  | append_singleton s₁ z ih =>
    intro hinc
    obtain ⟨hinc₁, hlt⟩ := IncX_append_singleton hinc
    obtain ⟨hdec, hrt, hhead, hlast, hmem, hdom⟩ := ih hinc₁
    rw [List.foldl_append]
    simp only [List.foldl_cons, List.foldl_nil]
    set σ := s₁.foldl (chainPush popU) [] with hσ
    have hzgt : ∀ q ∈ σ, q.1 < z.1 := fun q hq => hlt q (hmem q hq)
    obtain ⟨hsh, hsm, hsl⟩ := pushStep_shape σ z
    obtain ⟨hdec', hrt', herle'⟩ := pushStep_valid σ z hdec hrt hzgt
    refine ⟨hdec', hrt', ?_, ?_, ?_, ?_⟩
    · rw [hsh, List.getLast?_append_of_ne_nil s₁ (by simp)]
      rfl
    · cases hs₁ : s₁ with
      | nil =>
        subst hs₁
        rfl
      | cons c t =>
        have hσne : σ ≠ [] := by
          intro hn
          rw [hn] at hhead
          rw [hs₁, List.getLast?_eq_getLast (c :: t) (by simp)] at hhead
          exact Option.noConfusion hhead
        rw [hsl hσne, hlast, hs₁]
        simp
    · intro q hq
      rcases hsm q hq with rfl | hq2
      · simp
      · exact List.mem_append_left _ (hmem q hq2)
    · intro p hp
      rcases List.mem_append.mp hp with hps | hpz
      · refine pushStep_dom σ z p hdec hzgt (hdom p hps) ?_ ?_
        · intro b hb
          rw [hhead] at hb
          exact getLast_max_of_IncX hinc₁ hps hb
        · intro x hx
          rw [hlast] at hx
          exact head_min_of_IncX hinc₁ hps hx
      · rw [List.mem_singleton.mp hpz]
        exact herle'

/-- Pushing the next knot `T` pops the whole decoration `Drev` (every pending
pair lets `T` through) and stops exactly at the anchor `u`. -/
lemma cascadeT2 (u T : ℚ × ℚ) (Arev : List (ℚ × ℚ))
    (hstop : ∀ a t, Arev = a :: t → crossVal a u T < 0) :
    ∀ Drev : List (ℚ × ℚ), Pc T (Drev ++ [u]) →
      chainPush popU (Drev ++ u :: Arev) T = T :: u :: Arev := by
  intro Drev
  induction Drev with
  | nil =>
    intro _
    cases Arev with
    | nil => rfl
    | cons a t =>
      rw [List.nil_append, chainPush_cons,
        if_neg (by simp [popU, not_le]; exact hstop a t rfl)]
  | cons d D' ih =>
    intro hpc
    cases D' with
    | nil =>
      have h1 : 0 ≤ crossVal u d T := hpc.1
      rw [List.cons_append, List.nil_append, chainPush_cons,
        if_pos (by simp [popU]; exact h1)]
      exact ih trivial
    | cons d' D'' =>
      have h1 : 0 ≤ crossVal d' d T := hpc.1
      simp only [List.cons_append]
      rw [chainPush_cons, if_pos (by simp [popU]; exact h1)]
      simpa only [List.cons_append] using ih hpc.2

/-- Pushing an intermediate point `z` (strictly before the next knot `T`)
pops only decoration points: it stops inside the decoration (or right on the
anchor `u`), and the pending-pair condition survives with `z` on top. -/
lemma cascadeT1 (u T z : ℚ × ℚ) (Arev : List (ℚ × ℚ))
    (hcorner : ∀ a t, Arev = a :: t → crossVal a u z < 0)
    (hzT : crossVal u T z ≤ 0)
    (huz : u.1 < z.1) (hzT2 : z.1 < T.1) :
    ∀ Drev : List (ℚ × ℚ), Pc T (Drev ++ [u]) → DecX (Drev ++ [u]) →
      (∀ d ∈ Drev, d.1 < z.1) →
      ∃ D₂, D₂ <:+ Drev ∧
        chainPush popU (Drev ++ u :: Arev) z = z :: D₂ ++ u :: Arev ∧
        Pc T ((z :: D₂) ++ [u]) ∧ DecX ((z :: D₂) ++ [u]) := by
  intro Drev
  induction Drev with
  | nil =>
    intro _ _ _
    refine ⟨[], List.nil_suffix, ?_, ?_, ?_⟩
    · cases Arev with
      | nil => rfl
      | cons a t =>
        rw [List.nil_append, chainPush_cons,
          if_neg (by simp [popU, not_le]; exact hcorner a t rfl)]
        simp
    · constructor
      · rw [crossVal_swap]
        linarith
      · trivial
    · exact ⟨huz, trivial⟩
  | cons d D' ih =>
    intro hpc hdec hdz
    have hdz' : d.1 < z.1 := hdz d (List.mem_cons_self _ _)
    cases D' with
    | nil =>
      by_cases hp : (0 : ℚ) ≤ crossVal u d z
      · rw [List.cons_append, List.nil_append, chainPush_cons,
          if_pos (by simpa [popU] using hp)]
        obtain ⟨D₂, hsuf, heq, hpc', hdec'⟩ := ih trivial trivial (by simp)
        rw [List.nil_append] at heq
        exact ⟨D₂, hsuf.trans (List.suffix_cons _ _), heq, hpc', hdec'⟩
      · rw [List.cons_append, List.nil_append, chainPush_cons,
          if_neg (by simp [popU]; exact lt_of_not_le hp)]
        have hcrux : 0 ≤ crossVal d z T :=
          cross_crux hdec.1 hdz' hzT2 (lt_of_not_le hp) hpc.1
        exact ⟨[d], List.suffix_refl _, rfl, ⟨hcrux, hpc⟩, ⟨hdz', hdec⟩⟩
    | cons d' D'' =>
      by_cases hp : (0 : ℚ) ≤ crossVal d' d z
      · simp only [List.cons_append]
        rw [chainPush_cons, if_pos (by simpa [popU] using hp)]
        obtain ⟨D₂, hsuf, heq, hpc', hdec'⟩ :=
          ih hpc.2 hdec.2 (fun q hq => hdz q (List.mem_cons_of_mem _ hq))
        simp only [List.cons_append] at heq
        exact ⟨D₂, hsuf.trans (List.suffix_cons _ _), heq, hpc', hdec'⟩
      · simp only [List.cons_append]
        rw [chainPush_cons, if_neg (by simp [popU]; exact lt_of_not_le hp)]
        have hcrux : 0 ≤ crossVal d z T :=
          cross_crux hdec.1 hdz' hzT2 (lt_of_not_le hp) hpc.1
        exact ⟨d :: d' :: D'', List.suffix_refl _, by simp, ⟨hcrux, hpc⟩, ⟨hdz', hdec⟩⟩

lemma getLast?_cons_ne_nil {z : ℚ × ℚ} {l : List (ℚ × ℚ)} (h : l ≠ []) :
    (z :: l).getLast? = l.getLast? :=
  List.getLast?_append_of_ne_nil [z] h

/-- The determination theorem, in fold form: processing a strictly
x-increasing point list `rest` that contains the remaining knots `B` of the
target chain `U = A ++ u :: B` as a sublist (ending with them), every point
dominated by `U`'s edges, from a state that is the processed knots plus a
pending decoration `Drev`, lands exactly on `U` reversed. -/
lemma detAux (U : List (ℚ × ℚ)) (hUrt : RT U.reverse) (hUdec : DecX U.reverse) :
    ∀ (rest A : List (ℚ × ℚ)) (u : ℚ × ℚ) (B Drev : List (ℚ × ℚ)),
      U = A ++ u :: B →
      rest.getLast? = B.getLast? →
      List.Sublist B rest →
      (∀ p ∈ rest, ERle p U.reverse) →
      (∀ p ∈ rest, ∀ d ∈ Drev, d.1 < p.1) →
      (∀ p ∈ rest, u.1 < p.1) →
      IncX rest →
      DecX (Drev ++ [u]) →
      (B = [] → Drev = []) →
      (∀ T B', B = T :: B' → Pc T (Drev ++ [u])) →
      List.foldl (chainPush popU) (Drev ++ u :: A.reverse) rest = U.reverse := by
  intro rest
  induction rest with
  | nil =>
    intro A u B Drev hU hend _ _ _ _ _ _ hBe _
    have hB : B = [] := by
      cases B with
      | nil => rfl
      | cons T B' =>
        rw [List.getLast?_eq_getLast (T :: B') (by simp)] at hend
        exact Option.noConfusion hend
    subst hB
    rw [hBe rfl]
    subst hU
    simp
  | cons z rest' ih =>
    intro A u B Drev hU hend hsub hedge hDlt hult hinc hdec hBe hpc
    cases B with
    | nil =>
      rw [List.getLast?_eq_getLast (z :: rest') (by simp)] at hend
      exact Option.noConfusion hend
    | cons T B' =>
      have hUrev : U.reverse = B'.reverse ++ T :: u :: A.reverse := by
        subst hU
        simp
      have hz_mem : z ∈ z :: rest' := List.mem_cons_self _ _
      have huz : u.1 < z.1 := hult z hz_mem
      have hzuT : crossVal u T z ≤ 0 := by
        have := ERle_suffix (hedge z hz_mem) ⟨B'.reverse, hUrev.symm⟩
        exact this.1
      have hcornerz : ∀ a t, A.reverse = a :: t → crossVal a u z < 0 := by
        intro a t hA
        have hsufU : (T :: u :: a :: t) <:+ U.reverse :=
          ⟨B'.reverse, by rw [hUrev, hA]⟩
        have hrtS := RT_suffix hUrt hsufU
        have hdecS := DecX_suffix hUdec hsufU
        exact cross_comp hdecS.2.1 hdecS.1 huz hrtS.1 hzuT
      by_cases hzT : z = T
      · -- the next point is the next knot: the decoration pops away
        subst hzT
        have hB'sub : List.Sublist B' rest' := List.cons_sublist_cons.mp hsub
        have hc2 := cascadeT2 u z A.reverse hcornerz Drev (hpc z B' rfl)
        rw [List.foldl_cons, hc2]
        have happ : U = (A ++ [u]) ++ z :: B' := by rw [hU]; simp
        have hrec := ih (A ++ [u]) z B' [] happ ?_ hB'sub
          (fun p hp => hedge p (List.mem_cons_of_mem _ hp))
          (fun p _ d hd => absurd hd (List.not_mem_nil d))
          (fun p hp => (List.pairwise_cons.mp (IncX_pairwise hinc)).1 p hp)
          (IncX_tail hinc) trivial (fun _ => rfl) (fun _ _ _ => trivial)
        · simpa using hrec
        · -- the remaining input ends with the remaining knots
          cases hB' : B' with
          | nil =>
            cases hr : rest' with
            | nil => rfl
            | cons c rc =>
              exfalso
              have hrne : rest' ≠ [] := by rw [hr]; simp
              rw [getLast?_cons_ne_nil hrne, hB'] at hend
              simp only [List.getLast?_singleton] at hend
              have hzmem : z ∈ rest' := List.mem_of_mem_getLast? hend
              exact lt_irrefl _ ((List.pairwise_cons.mp (IncX_pairwise hinc)).1 z hzmem)
          | cons c B'' =>
            have hr_ne : rest' ≠ [] := by
              intro h
              rw [h] at hB'sub
              rw [hB'] at hB'sub
              exact List.noConfusion (List.sublist_nil.mp hB'sub)
            rw [getLast?_cons_ne_nil hr_ne, hB',
              getLast?_cons_ne_nil (by simp : (c :: B'') ≠ [])] at hend
            exact hend
      · -- an intermediate point: it joins the decoration
        have hTBsub : List.Sublist (T :: B') rest' := by
          cases hsub with
          | cons _ h => exact h
          | cons₂ _ h => exact absurd rfl hzT
        have hT_mem : T ∈ rest' := hTBsub.subset (List.mem_cons_self _ _)
        have hzT1 : z.1 < T.1 :=
          (List.pairwise_cons.mp (IncX_pairwise hinc)).1 T hT_mem
        obtain ⟨D₂, hsufD, heqD, hpcD, hdecD⟩ :=
          cascadeT1 u T z A.reverse hcornerz hzuT huz hzT1 Drev (hpc T B' rfl) hdec
            (fun d hd => hDlt z hz_mem d hd)
        rw [List.foldl_cons, heqD]
        have hrest_ne : rest' ≠ [] := List.ne_nil_of_mem hT_mem
        have hrec := ih A u (T :: B') (z :: D₂) hU
          (by rw [← getLast?_cons_ne_nil (l := rest') hrest_ne]; exact hend)
          hTBsub
          (fun p hp => hedge p (List.mem_cons_of_mem _ hp))
          (fun p hp d hd => by
            rcases List.mem_cons.mp hd with rfl | hd2
            · exact (List.pairwise_cons.mp (IncX_pairwise hinc)).1 p hp
            · exact hDlt p (List.mem_cons_of_mem _ hp) d (hsufD.sublist.subset hd2))
          (fun p hp => hult p (List.mem_cons_of_mem _ hp))
          (IncX_tail hinc) hdecD (fun h => List.noConfusion h)
          (fun T₂ B₂ h => by
            injection h with h1 h2
            subst h1
            exact hpcD)
        simpa using hrec

/-- Determination, top level: a strictly x-increasing list that contains the
valid chain `U` as a sublist, shares its endpoints, and keeps all its points
on or below `U`'s edges, folds to exactly `U` (reversed). -/
lemma det (U t : List (ℚ × ℚ)) (hUrt : RT U.reverse) (hUdec : DecX U.reverse)
    (hhead : t.head? = U.head?) (hlast : t.getLast? = U.getLast?)
    (hsub : List.Sublist U t) (hedge : ∀ p ∈ t, ERle p U.reverse)
    (hinc : IncX t) (hUne : U ≠ []) :
    t.foldl (chainPush popU) [] = U.reverse := by
  cases U with
  | nil => exact absurd rfl hUne
  | cons u₀ Ut =>
    cases t with
    | nil => exact Option.noConfusion hhead
    | cons z t' =>
      have hz : z = u₀ := by
        injection hhead
      subst hz
      have hsubt : List.Sublist Ut t' := List.cons_sublist_cons.mp hsub
      rw [List.foldl_cons]
      have happly := detAux (z :: Ut) hUrt hUdec t' [] z Ut [] rfl ?_ hsubt
        (fun p hp => hedge p (List.mem_cons_of_mem _ hp))
        (fun p _ d hd => absurd hd (List.not_mem_nil d))
        (fun p hp => (List.pairwise_cons.mp (IncX_pairwise hinc)).1 p hp)
        (IncX_tail hinc) trivial (fun _ => rfl) (fun _ _ _ => trivial)
      · simpa using happly
      · cases hU' : Ut with
        | nil =>
          cases ht' : t' with
          | nil => rfl
          | cons c rc =>
            exfalso
            have htne : t' ≠ [] := by rw [ht']; simp
            rw [getLast?_cons_ne_nil htne, hU'] at hlast
            simp only [List.getLast?_singleton] at hlast
            have hzm : z ∈ t' := List.mem_of_mem_getLast? hlast
            exact lt_irrefl _ ((List.pairwise_cons.mp (IncX_pairwise hinc)).1 z hzm)
        | cons c U'' =>
          have htne : t' ≠ [] := by
            intro h
            rw [h] at hsubt
            rw [hU'] at hsubt
            exact List.noConfusion (List.sublist_nil.mp hsubt)
          rw [getLast?_cons_ne_nil htne, hU',
            getLast?_cons_ne_nil (by simp : (c :: U'') ≠ [])] at hlast
          exact hlast

/-- Negating ordinates turns the lower-chain computation into the upper one. -/
def negP (q : ℚ × ℚ) : ℚ × ℚ := (q.1, -q.2)

lemma crossVal_negP (o a b : ℚ × ℚ) :
    crossVal (negP o) (negP a) (negP b) = -crossVal o a b := by
  simp only [crossVal, negP]
  ring

lemma chainPush_negP : ∀ (σ : List (ℚ × ℚ)) (p : ℚ × ℚ),
    chainPush popU (σ.map negP) (negP p) = (chainPush popL σ p).map negP := by
  intro σ
  induction σ with
  | nil => intro p; rfl
  | cons b rest ih =>
    intro p
    cases rest with
    | nil => rfl
    | cons a t =>
      simp only [List.map_cons]
      rw [chainPush_cons, chainPush_cons, crossVal_negP]
      have hpop : popU (-crossVal a b p) = popL (crossVal a b p) := by
        simp [popU, popL, neg_nonneg]
      rw [hpop]
      by_cases h : popL (crossVal a b p)
      · rw [if_pos h, if_pos h, ← List.map_cons]
        exact ih p
      · rw [if_neg h, if_neg h]
        rfl

lemma foldl_negP : ∀ (s : List (ℚ × ℚ)) (σ : List (ℚ × ℚ)),
    (s.map negP).foldl (chainPush popU) (σ.map negP) =
      (s.foldl (chainPush popL) σ).map negP := by
  intro s
  induction s with
  | nil => intro σ; rfl
  | cons z rest ih =>
    intro σ
    simp only [List.map_cons, List.foldl_cons]
    rw [chainPush_negP]
    exact ih _

lemma foldl_negP_nil (s : List (ℚ × ℚ)) :
    (s.map negP).foldl (chainPush popU) [] =
      (s.foldl (chainPush popL) []).map negP :=
  foldl_negP s []

lemma IncX_negP : ∀ (s : List (ℚ × ℚ)), IncX s → IncX (s.map negP) := by
  intro s
  induction s with
  | nil => exact fun _ => trivial
  | cons a rest ih =>
    cases rest with
    | nil => exact fun _ => trivial
    | cons b t => exact fun h => ⟨h.1, ih h.2⟩

lemma insertBy_perm (lt : α → α → Bool) (x : α) :
    ∀ l : List α, (insertBy lt x l).Perm (x :: l) := by
  intro l
  induction l with
  | nil => exact List.Perm.refl _
  | cons y ys ih =>
    by_cases h : lt y x
    · rw [insertBy, if_pos h]
      exact (ih.cons y).trans (List.Perm.swap x y ys)
    · rw [insertBy, if_neg h]

lemma sortBy_perm (lt : α → α → Bool) : ∀ l : List α, (sortBy lt l).Perm l := by
  intro l
  induction l with
  | nil => exact List.Perm.refl _
  | cons y ys ih => exact (insertBy_perm lt y (sortBy lt ys)).trans (ih.cons y)

lemma mem_sortBy {lt : α → α → Bool} {l : List α} {q : α} :
    q ∈ sortBy lt l ↔ q ∈ l :=
  (sortBy_perm lt l).mem_iff

lemma lexLt_asymm {a b : ℚ × ℚ} (h : lexLt a b = true) : lexLt b a = false := by
  simp only [lexLt, decide_eq_true_eq] at h
  simp only [lexLt, decide_eq_false_iff_not]
  rcases h with h | ⟨h1, h2⟩
  · rintro (h' | ⟨h1', _⟩) <;> linarith
  · rintro (h' | ⟨h1', h2'⟩) <;> linarith

lemma fstLt_asymm {a b : ℚ × ℚ} (h : fstLt a b = true) : fstLt b a = false := by
  simp only [fstLt, decide_eq_true_eq] at h
  simp only [fstLt, decide_eq_false_iff_not]
  linarith

/-- Insertion sort produces a chain in which no adjacent pair is inverted. -/
lemma sortBy_chain (lt : ℚ × ℚ → ℚ × ℚ → Bool)
    (hasymm : ∀ a b : ℚ × ℚ, lt a b = true → lt b a = false) :
    ∀ l : List (ℚ × ℚ), List.Chain' (fun a b => lt b a = false) (sortBy lt l) := by
  have hins : ∀ (x : ℚ × ℚ) (l : List (ℚ × ℚ)),
      List.Chain' (fun a b => lt b a = false) l →
      List.Chain' (fun a b => lt b a = false) (insertBy lt x l) := by
    intro x l
    induction l with
    | nil => exact fun _ => List.chain'_singleton x
    | cons y ys ih =>
      intro hch
      by_cases h : lt y x
      · rw [insertBy, if_pos h]
        have hch2 := ih (hch.tail)
        rw [List.chain'_cons']
        refine ⟨?_, hch2⟩
        intro w hw
        cases ys with
        | nil =>
          simp only [insertBy] at hw
          injection hw with hw
          subst hw
          exact hasymm y x h
        | cons y₂ ys₂ =>
          by_cases h2 : lt y₂ x
          · rw [insertBy, if_pos h2] at hw
            injection hw with hw
            subst hw
            exact (List.chain'_cons.mp hch).1
          · rw [insertBy, if_neg h2] at hw
            injection hw with hw
            subst hw
            exact hasymm y x h
      · rw [insertBy, if_neg h]
        exact List.Chain'.cons (by simpa using h) hch
  intro l
  induction l with
  | nil => exact trivial
  | cons y ys ih => exact hins y (sortBy lt ys) ih

lemma IncX_of_chain_nodup_fst {l : List (ℚ × ℚ)}
    (hch : List.Chain' (fun a b => lexLt b a = false) l)
    (hnd : (l.map Prod.fst).Nodup) : IncX l := by
  rw [IncX_iff_chain]
  induction l with
  | nil => trivial
  | cons a t ih =>
    cases t with
    | nil => exact List.chain'_singleton a
    | cons b t' =>
      rw [List.chain'_cons] at hch ⊢
      refine ⟨?_, ih hch.2 (by simpa using (List.nodup_cons.mp hnd).2)⟩
      have hne : a.1 ≠ b.1 := by
        have := (List.nodup_cons.mp hnd).1
        simp only [List.map_cons, List.mem_cons] at this
        exact fun h => this (Or.inl h)
      have h1 := hch.1
      simp only [lexLt, decide_eq_false_iff_not, not_or, not_and, not_lt] at h1
      rcases lt_or_eq_of_le h1.1 with h | h
      · exact h
      · exact absurd h hne

lemma dedupSorted_of_IncX : ∀ {l : List (ℚ × ℚ)}, IncX l → dedupSorted l = l := by
  intro l
  induction l with
  | nil => exact fun _ => rfl
  | cons a t ih =>
    cases t with
    | nil => exact fun _ => rfl
    | cons b t' =>
      intro h
      rw [dedupSorted, if_neg (fun he => absurd (congrArg Prod.fst he) (ne_of_lt h.1)),
        ih h.2]

lemma IncX_nodup {l : List (ℚ × ℚ)} (h : IncX l) : l.Nodup :=
  (IncX_pairwise h).imp fun hlt => fun he => absurd (congrArg Prod.fst he) (ne_of_lt hlt)

lemma mem_IncX_fst_inj : ∀ {l : List (ℚ × ℚ)}, IncX l → ∀ {p q : ℚ × ℚ},
    p ∈ l → q ∈ l → p.1 = q.1 → p = q := by
  intro l
  induction l with
  | nil => intro _ p q hp; cases hp
  | cons a t ih =>
    intro h p q hp hq he
    have hmin : ∀ r ∈ t, a.1 < r.1 := fun r hr =>
      List.rel_of_pairwise_cons (IncX_pairwise h) hr
    rcases List.mem_cons.mp hp with hp1 | hp1 <;> rcases List.mem_cons.mp hq with hq1 | hq1
    · rw [hp1, hq1]
    · rw [hp1] at he
      exact absurd he (ne_of_lt (hmin q hq1))
    · rw [hq1] at he
      exact absurd he.symm (ne_of_lt (hmin p hp1))
    · exact ih (IncX_tail h) hp1 hq1 he

/-- Two strictly `x`-sorted lists related by membership are related as sublists. -/
lemma sublist_of_IncX_mem : ∀ {t u : List (ℚ × ℚ)}, IncX u → IncX t →
    (∀ q ∈ u, q ∈ t) → List.Sublist u t := by
  intro t
  induction t with
  | nil =>
    intro u _ _ hm
    cases u with
    | nil => exact List.Sublist.refl _
    | cons a u' => cases hm a (List.mem_cons_self a u')
  | cons c t' ih =>
    intro u hu ht hm
    cases u with
    | nil => exact List.nil_sublist _
    | cons a u' =>
      rcases List.mem_cons.mp (hm a (List.mem_cons_self a u')) with hac | hat
      · subst hac
        refine List.Sublist.cons₂ a (ih (IncX_tail hu) (IncX_tail ht) ?_)
        intro q hq
        rcases List.mem_cons.mp (hm q (List.mem_cons_of_mem a hq)) with hqa | hqt'
        · have hlt := List.rel_of_pairwise_cons (IncX_pairwise hu) hq
          rw [hqa] at hlt
          exact absurd hlt (lt_irrefl _)
        · exact hqt'
      · refine List.Sublist.cons c (ih hu (IncX_tail ht) ?_)
        intro q hq
        rcases List.mem_cons.mp (hm q hq) with hqc | hqt'
        · have hca : c.1 < a.1 := List.rel_of_pairwise_cons (IncX_pairwise ht) hat
          have haq : a.1 ≤ q.1 := by
            rcases List.mem_cons.mp hq with h1 | h1
            · rw [h1]
            · exact le_of_lt (List.rel_of_pairwise_cons (IncX_pairwise hu) h1)
          rw [hqc] at haq
          exact absurd (lt_of_lt_of_le hca haq) (lt_irrefl _)
        · exact hqt'

/-- A permutation between two strictly `x`-sorted lists forces equality. -/
lemma eq_of_perm_IncX {l₁ l₂ : List (ℚ × ℚ)} (hp : l₁.Perm l₂)
    (h1 : IncX l₁) (h2 : IncX l₂) : l₁ = l₂ :=
  List.Sublist.antisymm
    (sublist_of_IncX_mem h1 h2 fun q hq => hp.mem_iff.mp hq)
    (sublist_of_IncX_mem h2 h1 fun q hq => hp.mem_iff.mpr hq)

lemma map_fix {α : Type} {f : α → α} : ∀ {l : List α},
    (∀ q ∈ l, f q = q) → l.map f = l := by
  intro l
  induction l with
  | nil => intro h; rfl
  | cons a t ih =>
    intro h
    rw [List.map_cons, h a (List.mem_cons_self a t),
      ih fun q hq => h q (List.mem_cons_of_mem a hq)]

lemma zip_map_self {f : ℚ → ℚ} : ∀ P : List ℚ,
    P.zip (P.map f) = P.map fun x => (x, f x) := by
  intro P
  induction P with
  | nil => rfl
  | cons a t ih => simp [ih]

lemma IncX_map_proj {g : ℚ → ℚ} : ∀ {l : List (ℚ × ℚ)}, IncX l →
    IncX (l.map fun q => (q.1, g q.1)) := by
  intro l
  induction l with
  | nil => intro h; trivial
  | cons a t ih =>
    intro h
    cases t with
    | nil => trivial
    | cons b t' => exact ⟨h.1, ih h.2⟩

lemma interp_cons_cons (x : ℚ) (k1 k2 : ℚ × ℚ) (rest : List (ℚ × ℚ)) :
    interp x (k1 :: k2 :: rest) =
      if x ≤ k1.1 then k1.2
      else if x ≤ k2.1 then k1.2 + (x - k1.1) * (k2.2 - k1.2) / (k2.1 - k1.1)
      else interp x (k2 :: rest) := rfl

/-- Interpolating at a knot of a strictly `x`-sorted knot list returns the
knot's second coordinate (`np.interp` reproduces its sample values). -/
lemma interp_knot : ∀ {V : List (ℚ × ℚ)}, IncX V → ∀ {k : ℚ × ℚ}, k ∈ V →
    interp k.1 V = k.2 := by
  intro V
  induction V with
  | nil => intro _ k hk; cases hk
  | cons k1 rest ih =>
    intro hV k hk
    cases rest with
    | nil =>
      rcases List.mem_cons.mp hk with h | h
      · rw [h]
        rfl
      · cases h
    | cons k2 rest' =>
      rcases List.mem_cons.mp hk with h | h
      · rw [h, interp_cons_cons, if_pos le_rfl]
      · have h1 : k1.1 < k.1 := List.rel_of_pairwise_cons (IncX_pairwise hV) h
        rw [interp_cons_cons, if_neg (not_le.mpr h1)]
        rcases List.mem_cons.mp h with h2 | h2
        · rw [h2, if_pos le_rfl]
          have hne : k2.1 - k1.1 ≠ 0 := sub_ne_zero.mpr (ne_of_gt hV.1)
          field_simp
        · have h3 : k2.1 < k.1 :=
            List.rel_of_pairwise_cons (IncX_pairwise (IncX_tail hV)) h2
          rw [if_neg (not_le.mpr h3)]
          exact ih (IncX_tail hV) h

/-- A point interpolated inside the knot range satisfies every linear side
condition satisfied by all knots (the interpolant stays in the convex hull
of the knots). -/
lemma interp_below : ∀ {V : List (ℚ × ℚ)}, IncX V →
    ∀ {e f : ℚ × ℚ} {x : ℚ} {kh kl : ℚ × ℚ},
    V.head? = some kh → V.getLast? = some kl →
    kh.1 ≤ x → x ≤ kl.1 →
    (∀ v ∈ V, crossVal e f v ≤ 0) →
    crossVal e f (x, interp x V) ≤ 0 := by
  intro V
  induction V with
  | nil => intro _ e f x kh kl hh; cases hh
  | cons k1 rest ih =>
    intro hV e f x kh kl hh hl hlo hhi hall
    have hk1 : kh = k1 := by injection hh with hh; exact hh.symm
    rw [hk1] at hlo
    cases rest with
    | nil =>
      have hkl : kl = k1 := by
        rw [List.getLast?_singleton] at hl
        injection hl with hl
        exact hl.symm
      rw [hkl] at hhi
      have hx : x = k1.1 := le_antisymm hhi hlo
      have h1 : interp x [k1] = k1.2 := rfl
      rw [h1, hx]
      have h2 : ((k1.1 : ℚ), k1.2) = k1 := rfl
      rw [h2]
      exact hall k1 (List.mem_singleton.mpr rfl)
    | cons k2 rest' =>
      by_cases hx1 : x ≤ k1.1
      · have hx : x = k1.1 := le_antisymm hx1 hlo
        rw [interp_cons_cons, if_pos hx1, hx]
        have h2 : ((k1.1 : ℚ), k1.2) = k1 := rfl
        rw [h2]
        exact hall k1 (List.mem_cons_self k1 _)
      · by_cases hx2 : x ≤ k2.1
        · rw [interp_cons_cons, if_neg hx1, if_pos hx2]
          have hd : k1.1 < k2.1 := hV.1
          have hdne : k2.1 - k1.1 ≠ 0 := sub_ne_zero.mpr (ne_of_gt hd)
          set θ : ℚ := (x - k1.1) / (k2.1 - k1.1) with hθ
          have hθ0 : 0 ≤ θ := div_nonneg (by linarith [not_le.mp hx1]) (by linarith)
          have hθ1 : θ ≤ 1 := by
            rw [hθ, div_le_one (by linarith)]
            linarith
          have hcoord : ((x : ℚ), k1.2 + (x - k1.1) * (k2.2 - k1.2) / (k2.1 - k1.1)) =
              ((1 - θ) * k1.1 + θ * k2.1, (1 - θ) * k1.2 + θ * k2.2) := by
            rw [hθ]
            simp only [Prod.mk.injEq]
            constructor
            · field_simp
              ring
            · field_simp
              ring
          rw [hcoord, cross_affine]
          have h1 := hall k1 (List.mem_cons_self k1 _)
          have h2 := hall k2 (List.mem_cons_of_mem _ (List.mem_cons_self k2 _))
          nlinarith [mul_nonneg (by linarith : (0:ℚ) ≤ 1 - θ) (neg_nonneg.mpr h1),
            mul_nonneg hθ0 (neg_nonneg.mpr h2)]
        · rw [interp_cons_cons, if_neg hx1, if_neg hx2]
          have hlast : (k2 :: rest').getLast? = some kl := by
            rw [← hl]
            exact (List.getLast?_cons_cons).symm
          exact ih (IncX_tail hV) rfl hlast (le_of_lt (not_le.mp hx2)) hhi
            fun v hv => hall v (List.mem_cons_of_mem _ hv)

/-- `ERle` transfers from the knots of a piecewise-linear interpolant to any
interpolated point whose abscissa lies in the knot range. -/
lemma ERle_interp {V : List (ℚ × ℚ)} (hV : IncX V) {x : ℚ} {kh kl : ℚ × ℚ}
    (hh : V.head? = some kh) (hl : V.getLast? = some kl)
    (hlo : kh.1 ≤ x) (hhi : x ≤ kl.1) :
    ∀ σ : List (ℚ × ℚ), (∀ v ∈ V, ERle v σ) → ERle (x, interp x V) σ := by
  intro σ
  induction σ with
  | nil => intro h; trivial
  | cons b σ' ih =>
    cases σ' with
    | nil => intro h; trivial
    | cons a t =>
      intro hall
      exact ⟨interp_below hV hh hl hlo hhi fun v hv => (hall v hv).1,
        ih fun v hv => (hall v hv).2⟩

/-- Interpolation through negated knots negates the interpolant. -/
lemma interp_negP : ∀ (V : List (ℚ × ℚ)) (x : ℚ),
    interp x (V.map negP) = -interp x V := by
  intro V
  induction V with
  | nil => intro x; simp [interp]
  | cons k1 rest ih =>
    intro x
    cases rest with
    | nil => rfl
    | cons k2 rest' =>
      rw [List.map_cons, List.map_cons, interp_cons_cons, interp_cons_cons]
      have e1 : (negP k1).1 = k1.1 := rfl
      have e2 : (negP k2).1 = k2.1 := rfl
      have e3 : (negP k1).2 = -k1.2 := rfl
      have e4 : (negP k2).2 = -k2.2 := rfl
      rw [e1, e2, e3, e4]
      by_cases h1 : x ≤ k1.1
      · rw [if_pos h1, if_pos h1]
      · rw [if_neg h1, if_neg h1]
        by_cases h2 : x ≤ k2.1
        · rw [if_pos h2, if_pos h2]
          ring
        · rw [if_neg h2, if_neg h2, ← List.map_cons]
          exact ih x

lemma DecX_iff_chain : ∀ l : List (ℚ × ℚ),
    DecX l ↔ List.Chain' (fun b a : ℚ × ℚ => a.1 < b.1) l := by
  intro l
  induction l with
  | nil => exact ⟨fun _ => trivial, fun _ => trivial⟩
  | cons a t ih =>
    cases t with
    | nil => exact ⟨fun _ => List.chain'_singleton a, fun _ => trivial⟩
    | cons b t' =>
      constructor
      · intro h
        exact List.chain'_cons.mpr ⟨h.1, ih.mp h.2⟩
      · intro h
        exact ⟨(List.chain'_cons.mp h).1, ih.mpr (List.chain'_cons.mp h).2⟩

lemma IncX_reverse_of_DecX {l : List (ℚ × ℚ)} (h : DecX l) : IncX l.reverse := by
  rw [IncX_iff_chain, List.chain'_reverse]
  exact (DecX_iff_chain l).mp h

lemma IncX_of_pairwise {l : List (ℚ × ℚ)} (h : l.Pairwise fun a b => a.1 < b.1) :
    IncX l := by
  rw [IncX_iff_chain, List.chain'_iff_pairwise]
  exact h

lemma IncX_of_sublist {u l : List (ℚ × ℚ)} (hs : List.Sublist u l) (h : IncX l) :
    IncX u :=
  IncX_of_pairwise ((IncX_pairwise h).sublist hs)

lemma head_eq_of_IncX_minmem {l : List (ℚ × ℚ)} (hinc : IncX l) {p : ℚ × ℚ}
    (hp : p ∈ l) (hmin : ∀ q ∈ l, p.1 ≤ q.1) : l.head? = some p := by
  cases l with
  | nil => cases hp
  | cons a t =>
    have h1 := hmin a (List.mem_cons_self a t)
    have h2 := head_min_of_IncX hinc hp rfl
    rw [h2.2 (le_antisymm h1 h2.1)]
    rfl

lemma getLast_eq_of_IncX_maxmem {l : List (ℚ × ℚ)} (hinc : IncX l) {p : ℚ × ℚ}
    (hp : p ∈ l) (hmax : ∀ q ∈ l, q.1 ≤ p.1) : l.getLast? = some p := by
  have hne : l ≠ [] := fun h => by rw [h] at hp; cases hp
  obtain ⟨z, hz⟩ := Option.isSome_iff_exists.mp (List.getLast?_isSome.mpr hne)
  have hzl : z ∈ l := List.mem_of_mem_getLast? hz
  have h1 : p.1 ≤ z.1 := getLast_max_of_IncX hinc hp hz
  have h2 : z.1 ≤ p.1 := hmax z hzl
  rw [hz, mem_IncX_fst_inj hinc hzl hp (le_antisymm h2 h1)]

lemma headLast_lt_of_IncX : ∀ {s : List (ℚ × ℚ)}, IncX s → ∀ {a z : ℚ × ℚ},
    s.head? = some a → s.getLast? = some z → 2 ≤ s.length → a.1 < z.1 := by
  intro s hinc a z ha hz hlen
  cases s with
  | nil => cases ha
  | cons a' t =>
    have haa : a = a' := by injection ha with ha; exact ha.symm
    cases t with
    | nil => simp at hlen
    | cons b t' =>
      have hz' : z ∈ b :: t' := by
        rw [List.getLast?_cons_cons] at hz
        exact List.mem_of_mem_getLast? hz
      rw [haa]
      exact List.rel_of_pairwise_cons (IncX_pairwise hinc) hz'

lemma IncX_of_chainF_nodup_fst {l : List (ℚ × ℚ)}
    (hch : List.Chain' (fun a b => fstLt b a = false) l)
    (hnd : (l.map Prod.fst).Nodup) : IncX l := by
  rw [IncX_iff_chain]
  induction l with
  | nil => trivial
  | cons a t ih =>
    cases t with
    | nil => exact List.chain'_singleton a
    | cons b t' =>
      rw [List.chain'_cons] at hch ⊢
      refine ⟨?_, ih hch.2 (by simpa using (List.nodup_cons.mp hnd).2)⟩
      have hne : a.1 ≠ b.1 := by
        have := (List.nodup_cons.mp hnd).1
        simp only [List.map_cons, List.mem_cons] at this
        exact fun h => this (Or.inl h)
      have h1 := hch.1
      simp only [fstLt, decide_eq_false_iff_not, not_lt] at h1
      rcases lt_or_eq_of_le h1 with h | h
      · exact h
      · exact absurd h hne

/-- Sorting a list of points with pairwise-distinct first coordinates
lexicographically yields a strictly `x`-increasing permutation, on which the
duplicate pass is the identity. -/
lemma sorted_incX_perm {pts : List (ℚ × ℚ)} (hnd : (pts.map Prod.fst).Nodup) :
    IncX (sortBy lexLt pts) ∧
    dedupSorted (sortBy lexLt pts) = sortBy lexLt pts ∧
    (sortBy lexLt pts).Perm pts := by
  have hperm := sortBy_perm lexLt pts
  have hnd2 : ((sortBy lexLt pts).map Prod.fst).Nodup :=
    ((hperm.map Prod.fst).nodup_iff).mpr hnd
  have hinc := IncX_of_chain_nodup_fst (sortBy_chain lexLt (fun a b => lexLt_asymm) pts) hnd2
  exact ⟨hinc, dedupSorted_of_IncX hinc, hperm⟩

/-- The collinearity-transfer identity: the cross product against a segment
`a → b` decomposes over the reference line through `q₀ → q₁`. -/
lemma cross_line_rel (q₀ q₁ a b p : ℚ × ℚ) :
    (q₁.1 - q₀.1) * crossVal a b p =
      (b.1 - a.1) * crossVal q₀ q₁ p - (b.1 - a.1) * crossVal q₀ q₁ a
      - (crossVal q₀ q₁ b - crossVal q₀ q₁ a) * (p.1 - a.1) := by
  simp only [crossVal]
  ring

lemma negP_negP (p : ℚ × ℚ) : negP (negP p) = p := by
  simp [negP]

lemma map_negP_negP (l : List (ℚ × ℚ)) : (l.map negP).map negP = l := by
  rw [List.map_map]
  have h : negP ∘ negP = id := funext fun q => negP_negP q
  rw [h, List.map_id]

/-- The lower-chain fold inherits the upper-chain invariants through the
`y`-negation transfer. -/
lemma foldInvL (s : List (ℚ × ℚ)) (hinc : IncX s) :
    (∀ q ∈ s.foldl (chainPush popL) [], q ∈ s) ∧
    (s.foldl (chainPush popL) []).head? = s.getLast? ∧
    (s.foldl (chainPush popL) []).getLast? = s.head? ∧
    IncX (s.foldl (chainPush popL) []).reverse ∧
    (∀ p ∈ s, ERle (negP p) ((s.map negP).foldl (chainPush popU) [])) := by
  have hincN : IncX (s.map negP) := IncX_negP s hinc
  obtain ⟨hdecN, hrtN, hheadN, hlastN, hmemN, hdomN⟩ := foldInv (s.map negP) hincN
  have hfold : s.foldl (chainPush popL) [] =
      ((s.map negP).foldl (chainPush popU) []).map negP := by
    rw [foldl_negP_nil s, map_negP_negP]
  refine ⟨?_, ?_, ?_, ?_, ?_⟩
  · intro q hq
    rw [hfold] at hq
    obtain ⟨r, hr, hrq⟩ := List.mem_map.mp hq
    obtain ⟨p, hp, hpr⟩ := List.mem_map.mp (hmemN r hr)
    rw [← hrq, ← hpr, negP_negP]
    exact hp
  · rw [hfold, List.head?_map, hheadN, List.getLast?_map]
    cases s.getLast? with
    | none => rfl
    | some z => simp [negP_negP]
  · rw [hfold, List.getLast?_map, hlastN, List.head?_map]
    cases s.head? with
    | none => rfl
    | some z => simp [negP_negP]
  · rw [hfold, ← List.map_reverse]
    exact IncX_negP _ (IncX_reverse_of_DecX hdecN)
  · intro p hp
    exact hdomN (negP p) (List.mem_map_of_mem negP hp)

lemma DecX_of_IncX_reverse {l : List (ℚ × ℚ)} (h : IncX l.reverse) : DecX l := by
  rw [DecX_iff_chain]
  rw [IncX_iff_chain, List.chain'_reverse] at h
  exact h

/-- Structure of the sorted vertex list `V` produced by `hullVerticesByPrice`:
it is strictly `x`-sorted, drawn from `s`, contains both chains, and shares
`s`'s first and last points. -/
lemma V_facts {s : List (ℚ × ℚ)} (hs : IncX s) (hsne : s ≠ []) {V : List (ℚ × ℚ)}
    (hVdef : V = sortBy fstLt (lowerChain s ++
      (upperChain s).filter (fun p => !((lowerChain s).contains p)))) :
    IncX V ∧ (∀ v ∈ V, v ∈ s) ∧
    (∀ u ∈ upperChain s, u ∈ V) ∧ (∀ u ∈ lowerChain s, u ∈ V) ∧
    V.head? = s.head? ∧ V.getLast? = s.getLast? := by
  obtain ⟨hmemL, hheadL, hlastL, hincLrev, hdomL⟩ := foldInvL s hs
  obtain ⟨hdecF, hrtF, hheadF, hlastF, hmemF, hdomF⟩ := foldInv s hs
  have hmemV : ∀ v : ℚ × ℚ, v ∈ V ↔ v ∈ lowerChain s ++
      (upperChain s).filter (fun p => !((lowerChain s).contains p)) := by
    intro v
    rw [hVdef]
    exact mem_sortBy
  have hLmem : ∀ v ∈ lowerChain s, v ∈ s := by
    intro v hv
    rw [lowerChain_eq] at hv
    exact hmemL v (List.mem_reverse.mp hv)
  have hUmem : ∀ v ∈ upperChain s, v ∈ s := by
    intro v hv
    rw [upperChain_eq] at hv
    exact hmemF v (List.mem_reverse.mp hv)
  have hVs : ∀ v ∈ V, v ∈ s := by
    intro v hv
    rcases List.mem_append.mp ((hmemV v).mp hv) with h | h
    · exact hLmem v h
    · exact hUmem v (List.mem_of_mem_filter h)
  have hLV : ∀ v ∈ lowerChain s, v ∈ V := fun v hv =>
    (hmemV v).mpr (List.mem_append.mpr (Or.inl hv))
  have hUV : ∀ u ∈ upperChain s, u ∈ V := by
    intro u hu
    apply (hmemV u).mpr
    by_cases hL : u ∈ lowerChain s
    · exact List.mem_append.mpr (Or.inl hL)
    · refine List.mem_append.mpr (Or.inr (List.mem_filter.mpr ⟨hu, ?_⟩))
      simp [hL]
  have hincL : IncX (lowerChain s) := by
    rw [lowerChain_eq]
    exact hincLrev
  have hincU : IncX (upperChain s) := by
    rw [upperChain_eq]
    exact IncX_reverse_of_DecX hdecF
  have hincFil : IncX ((upperChain s).filter (fun p => !((lowerChain s).contains p))) :=
    IncX_of_sublist (List.filter_sublist _) hincU
  have hndcat : ((lowerChain s ++
      (upperChain s).filter (fun p => !((lowerChain s).contains p))).map Prod.fst).Nodup := by
    rw [List.map_append, List.nodup_append]
    refine ⟨?_, ?_, ?_⟩
    · exact List.pairwise_map.mpr ((IncX_pairwise hincL).imp fun h => ne_of_lt h)
    · exact List.pairwise_map.mpr ((IncX_pairwise hincFil).imp fun h => ne_of_lt h)
    · intro x hx1 hx2
      obtain ⟨l1, hl1, hlx⟩ := List.mem_map.mp hx1
      obtain ⟨u1, hu1, hux⟩ := List.mem_map.mp hx2
      have hu1U : u1 ∈ upperChain s := List.mem_of_mem_filter hu1
      have hnotL : u1 ∉ lowerChain s := by
        have h2 := (List.mem_filter.mp hu1).2
        simp at h2
        exact h2
      have heq : l1 = u1 := mem_IncX_fst_inj hs (hLmem l1 hl1) (hUmem u1 hu1U)
        (by rw [hlx, hux])
      rw [heq] at hl1
      exact hnotL hl1
  have hndV : (V.map Prod.fst).Nodup := by
    rw [hVdef]
    exact (((sortBy_perm fstLt _).map Prod.fst).nodup_iff).mpr hndcat
  have hincV : IncX V := by
    rw [hVdef] at hndV ⊢
    exact IncX_of_chainF_nodup_fst (sortBy_chain fstLt (fun a b => fstLt_asymm) _) hndV
  obtain ⟨h₀, hh₀⟩ : ∃ a, s.head? = some a := by
    cases s with
    | nil => exact absurd rfl hsne
    | cons a t => exact ⟨a, rfl⟩
  obtain ⟨z, hz⟩ := Option.isSome_iff_exists.mp (List.getLast?_isSome.mpr hsne)
  have hLhead : (lowerChain s).head? = some h₀ := by
    rw [lowerChain_eq, List.head?_reverse, hlastL, hh₀]
  have hUlast : (upperChain s).getLast? = some z := by
    rw [upperChain_eq, List.getLast?_reverse, hheadF, hz]
  have hVhead : V.head? = some h₀ := by
    apply head_eq_of_IncX_minmem hincV (hLV h₀ (List.mem_of_mem_head? hLhead))
    intro q hq
    exact (head_min_of_IncX hs (hVs q hq) hh₀).1
  have hVlast : V.getLast? = some z := by
    apply getLast_eq_of_IncX_maxmem hincV (hUV z (List.mem_of_mem_getLast? hUlast))
    intro q hq
    exact getLast_max_of_IncX hs (hVs q hq) hz
  refine ⟨hincV, hVs, hUV, hLV, ?_, ?_⟩
  · rw [hVhead, hh₀]
  · rw [hVlast, hz]

/-- Replacing every point of `s` by its interpolation through the hull vertex
list leaves both monotone-chain folds unchanged: the chain points are knots of
the interpolant (hence fixed), and every interpolated point stays inside the
hull, so the cascades run identically. -/
lemma chains_preserved {s V : List (ℚ × ℚ)} (hs : IncX s) (hlen2 : 2 ≤ s.length)
    (hVdef : V = sortBy fstLt (lowerChain s ++
      (upperChain s).filter (fun p => !((lowerChain s).contains p)))) :
    (s.map fun q => (q.1, interp q.1 V)).foldl (chainPush popU) [] =
      s.foldl (chainPush popU) [] ∧
    (s.map fun q => (q.1, interp q.1 V)).foldl (chainPush popL) [] =
      s.foldl (chainPush popL) [] := by
  have hsne : s ≠ [] := by
    intro h
    rw [h] at hlen2
    simp at hlen2
  obtain ⟨hincV, hVs, hUV, hLV, hVhead, hVlast⟩ := V_facts hs hsne hVdef
  obtain ⟨hdecF, hrtF, hheadF, hlastF, hmemF, hdomF⟩ := foldInv s hs
  obtain ⟨hmemL, hheadL, hlastL, hincLrev, hdomL⟩ := foldInvL s hs
  obtain ⟨h₀, hh₀⟩ : ∃ a, s.head? = some a := by
    cases s with
    | nil => exact absurd rfl hsne
    | cons a t => exact ⟨a, rfl⟩
  obtain ⟨z, hz⟩ := Option.isSome_iff_exists.mp (List.getLast?_isSome.mpr hsne)
  have hh₀V : V.head? = some h₀ := by rw [hVhead, hh₀]
  have hzV : V.getLast? = some z := by rw [hVlast, hz]
  have hfix : ∀ v ∈ V, ((v.1 : ℚ), interp v.1 V) = v := by
    intro v hv
    rw [interp_knot hincV hv]
  have hmincV : IncX (s.map fun q => (q.1, interp q.1 V)) :=
    IncX_map_proj (g := fun x => interp x V) hs
  have hmaphead : (s.map fun q => (q.1, interp q.1 V)).head? = some h₀ := by
    rw [List.head?_map, hh₀]
    exact congrArg some (hfix h₀ (List.mem_of_mem_head? hh₀V))
  have hmaplast : (s.map fun q => (q.1, interp q.1 V)).getLast? = some z := by
    rw [List.getLast?_map, hz]
    exact congrArg some (hfix z (List.mem_of_mem_getLast? hzV))
  have hFne : s.foldl (chainPush popU) [] ≠ [] := by
    intro hF
    rw [hF, hz] at hheadF
    exact Option.noConfusion hheadF
  constructor
  · -- upper chain
    have hdet := det (s.foldl (chainPush popU) []).reverse
      (s.map fun q => (q.1, interp q.1 V))
      (by rw [List.reverse_reverse]; exact hrtF)
      (by rw [List.reverse_reverse]; exact hdecF)
      (by rw [hmaphead, List.head?_reverse, hlastF, hh₀])
      (by rw [hmaplast, List.getLast?_reverse, hheadF, hz])
      (by
        apply sublist_of_IncX_mem (IncX_reverse_of_DecX hdecF) hmincV
        intro q hq
        have hqU : q ∈ upperChain s := by
          rw [upperChain_eq]
          exact hq
        exact List.mem_map.mpr ⟨q, hVs q (hUV q hqU), hfix q (hUV q hqU)⟩)
      (by
        intro p hp
        rw [List.reverse_reverse]
        obtain ⟨q, hqs, hqp⟩ := List.mem_map.mp hp
        rw [← hqp]
        exact ERle_interp hincV hh₀V hzV (head_min_of_IncX hs hqs hh₀).1
          (getLast_max_of_IncX hs hqs hz) _ fun v hv => hdomF v (hVs v hv))
      hmincV
      (by
        intro h
        rw [List.reverse_eq_nil_iff] at h
        exact hFne h)
    rwa [List.reverse_reverse] at hdet
  · -- lower chain, through the negation transfer
    have hincN : IncX (s.map negP) := IncX_negP s hs
    obtain ⟨hdecN, hrtN, hheadN, hlastN, hmemN, hdomN⟩ := foldInv (s.map negP) hincN
    have hFN : (s.map negP).foldl (chainPush popU) [] =
        (s.foldl (chainPush popL) []).map negP := foldl_negP_nil s
    have hFNne : (s.map negP).foldl (chainPush popU) [] ≠ [] := by
      intro hF
      rw [hF] at hheadN
      rw [List.getLast?_map, hz] at hheadN
      exact Option.noConfusion hheadN
    have hdet := det ((s.map negP).foldl (chainPush popU) []).reverse
      ((s.map fun q => (q.1, interp q.1 V)).map negP)
      (by rw [List.reverse_reverse]; exact hrtN)
      (by rw [List.reverse_reverse]; exact hdecN)
      (by
        rw [List.head?_map, hmaphead, List.head?_reverse, hlastN,
          List.head?_map, hh₀])
      (by
        rw [List.getLast?_map, hmaplast, List.getLast?_reverse, hheadN,
          List.getLast?_map, hz])
      (by
        apply sublist_of_IncX_mem (IncX_reverse_of_DecX hdecN) (IncX_negP _ hmincV)
        intro q hq
        have hq2 : q ∈ (s.foldl (chainPush popL) []).map negP := by
          rw [← hFN]
          exact List.mem_reverse.mp hq
        obtain ⟨v, hv, hvq⟩ := List.mem_map.mp hq2
        have hvL : v ∈ lowerChain s := by
          rw [lowerChain_eq]
          exact List.mem_reverse.mpr hv
        refine List.mem_map.mpr ⟨(v.1, interp v.1 V), ?_, ?_⟩
        · exact List.mem_map.mpr ⟨v, hVs v (hLV v hvL), rfl⟩
        · rw [hfix v (hLV v hvL), hvq])
      (by
        intro p hp
        rw [List.reverse_reverse]
        obtain ⟨p', hp', hpp⟩ := List.mem_map.mp hp
        obtain ⟨q, hqs, hqp⟩ := List.mem_map.mp hp'
        rw [← hpp, ← hqp]
        have hrw : negP ((q.1 : ℚ), interp q.1 V) = (q.1, interp q.1 (V.map negP)) := by
          rw [interp_negP]
          rfl
        rw [hrw]
        have hhVN : (V.map negP).head? = some (negP h₀) := by
          rw [List.head?_map, hh₀V]
          rfl
        have hlVN : (V.map negP).getLast? = some (negP z) := by
          rw [List.getLast?_map, hzV]
          rfl
        refine ERle_interp (IncX_negP V hincV) hhVN hlVN
          (by exact ((head_min_of_IncX hs hqs hh₀).1 : h₀.1 ≤ q.1))
          (by exact (getLast_max_of_IncX hs hqs hz : q.1 ≤ z.1)) _ ?_
        intro vN hvN
        obtain ⟨v, hv, hvN'⟩ := List.mem_map.mp hvN
        rw [← hvN']
        exact hdomL v (hVs v hv))
      (IncX_negP _ hmincV)
      (by
        intro h
        rw [List.reverse_eq_nil_iff] at h
        exact hFNne h)
    rw [List.reverse_reverse] at hdet
    have himg := hdet.symm.trans (foldl_negP_nil (s.map fun q => (q.1, interp q.1 V)))
    rw [hFN] at himg
    have h2 := congrArg (List.map negP) himg
    rw [map_negP_negP, map_negP_negP] at h2
    exact h2.symm

lemma collinearAll_cons_cons {a b : ℚ × ℚ} (t : List (ℚ × ℚ)) (hne : b ≠ a) :
    collinearAll (a :: b :: t) =
      (a :: b :: t).all fun c => decide (crossVal a b c = 0) := by
  have hfind : List.find? (fun x => decide (x ≠ a)) (b :: t) = some b :=
    List.find?_cons_of_pos t (decide_eq_true hne)
  simp only [collinearAll]
  rw [hfind]

/-- Interpolating through the hull vertices cannot flatten a non-degenerate
point set: the image points are sandwiched between the two chains, so if they
were all on one line the original points would be too. -/
lemma collinearAll_map_interp {s V : List (ℚ × ℚ)} (hs : IncX s) (hlen3 : 3 ≤ s.length)
    (hVdef : V = sortBy fstLt (lowerChain s ++
      (upperChain s).filter (fun p => !((lowerChain s).contains p))))
    (hcol : collinearAll s = false) :
    collinearAll (s.map fun q => (q.1, interp q.1 V)) = false := by
  have hsne : s ≠ [] := by
    intro h
    rw [h] at hlen3
    simp at hlen3
  have hlen2 : 2 ≤ s.length := le_trans (by norm_num) hlen3
  obtain ⟨hincV, hVs, hUV, hLV, hVhead, hVlast⟩ := V_facts hs hsne hVdef
  obtain ⟨hdecF, hrtF, hheadF, hlastF, hmemF, hdomF⟩ := foldInv s hs
  obtain ⟨hmemL, hheadL, hlastL, hincLrev, hdomL⟩ := foldInvL s hs
  have hdecG : DecX (s.foldl (chainPush popL) []) := DecX_of_IncX_reverse hincLrev
  have hfix : ∀ v ∈ V, ((v.1 : ℚ), interp v.1 V) = v := by
    intro v hv
    rw [interp_knot hincV hv]
  have hFV : ∀ q ∈ s.foldl (chainPush popU) [], q ∈ V := by
    intro q hq
    refine hUV q ?_
    rw [upperChain_eq]
    exact List.mem_reverse.mpr hq
  have hGV : ∀ q ∈ s.foldl (chainPush popL) [], q ∈ V := by
    intro q hq
    refine hLV q ?_
    rw [lowerChain_eq]
    exact List.mem_reverse.mpr hq
  have hFNG : (s.map negP).foldl (chainPush popU) [] =
      (s.foldl (chainPush popL) []).map negP := foldl_negP_nil s
  cases s with
  | nil => exact absurd rfl hsne
  | cons a s1 =>
    cases s1 with
    | nil => simp at hlen3
    | cons b t =>
      have hab : a.1 < b.1 := hs.1
      obtain ⟨z, hz⟩ := Option.isSome_iff_exists.mp (List.getLast?_isSome.mpr hsne)
      have haz : a.1 < z.1 := headLast_lt_of_IncX hs rfl hz hlen2
      by_contra hcol2
      rw [Bool.not_eq_false] at hcol2
      have hmapeq : (a :: b :: t).map (fun q : ℚ × ℚ => (q.1, interp q.1 V)) =
          ((a.1 : ℚ), interp a.1 V) :: ((b.1 : ℚ), interp b.1 V) ::
            t.map (fun q : ℚ × ℚ => (q.1, interp q.1 V)) := rfl
      have hba' : ((b.1 : ℚ), interp b.1 V) ≠ ((a.1 : ℚ), interp a.1 V) := by
        intro h
        exact absurd (congrArg Prod.fst h) (ne_of_gt hab)
      rw [hmapeq, collinearAll_cons_cons _ hba'] at hcol2
      rw [List.all_eq_true] at hcol2
      have hline : ∀ c ∈ (a :: b :: t).map (fun q : ℚ × ℚ => (q.1, interp q.1 V)),
          crossVal ((a.1 : ℚ), interp a.1 V) ((b.1 : ℚ), interp b.1 V) c = 0 := by
        intro c hc
        have h1 := hcol2 c (by rw [← hmapeq]; exact hc)
        exact of_decide_eq_true h1
      have hlineV : ∀ v ∈ V,
          crossVal ((a.1 : ℚ), interp a.1 V) ((b.1 : ℚ), interp b.1 V) v = 0 := by
        intro v hv
        exact hline v (List.mem_map.mpr ⟨v, hVs v hv, hfix v hv⟩)
      have hQ : (0:ℚ) < ((b.1 : ℚ), interp b.1 V).1 - ((a.1 : ℚ), interp a.1 V).1 := by
        show (0:ℚ) < b.1 - a.1
        linarith
      -- destructure the upper-chain fold
      cases hF : (a :: b :: t).foldl (chainPush popU) [] with
      | nil =>
        rw [hF, hz] at hheadF
        exact Option.noConfusion hheadF
      | cons f₁ F' =>
        cases F' with
        | nil =>
          rw [hF, hz, List.head?_cons] at hheadF
          rw [hF, List.getLast?_singleton] at hlastF
          have h1 : f₁ = z := Option.some.inj hheadF
          have h3 : f₁ = a := Option.some.inj hlastF
          rw [h1] at h3
          rw [h3] at haz
          exact absurd haz (lt_irrefl _)
        | cons f₂ F'' =>
          -- destructure the lower-chain fold
          cases hG : (a :: b :: t).foldl (chainPush popL) [] with
          | nil =>
            rw [hG, hz] at hheadL
            exact Option.noConfusion hheadL
          | cons g₁ G' =>
            cases G' with
            | nil =>
              rw [hG, hz, List.head?_cons] at hheadL
              rw [hG, List.getLast?_singleton] at hlastL
              have h1 : g₁ = z := Option.some.inj hheadL
              have h3 : g₁ = a := Option.some.inj hlastL
              rw [h1] at h3
              rw [h3] at haz
              exact absurd haz (lt_irrefl _)
            | cons g₂ G'' =>
              have hD1 : f₂.1 < f₁.1 := by
                rw [hF] at hdecF
                exact hdecF.1
              have hD2 : g₂.1 < g₁.1 := by
                rw [hG] at hdecG
                exact hdecG.1
              have hf₁V : f₁ ∈ V := hFV f₁ (by rw [hF]; exact List.mem_cons_self _ _)
              have hf₂V : f₂ ∈ V := hFV f₂
                (by rw [hF]; exact List.mem_cons_of_mem _ (List.mem_cons_self _ _))
              have hg₁V : g₁ ∈ V := hGV g₁ (by rw [hG]; exact List.mem_cons_self _ _)
              have hg₂V : g₂ ∈ V := hGV g₂
                (by rw [hG]; exact List.mem_cons_of_mem _ (List.mem_cons_self _ _))
              have hsand : ∀ p ∈ (a :: b :: t),
                  crossVal ((a.1 : ℚ), interp a.1 V) ((b.1 : ℚ), interp b.1 V) p = 0 := by
                intro p hp
                have hup : crossVal f₂ f₁ p ≤ 0 := by
                  have h1 := hdomF p hp
                  rw [hF] at h1
                  exact h1.1
                have hlow : 0 ≤ crossVal g₂ g₁ p := by
                  have h1 := hdomL p hp
                  rw [hFNG, hG] at h1
                  simp only [List.map_cons] at h1
                  have h2 := h1.1
                  rw [crossVal_negP] at h2
                  linarith
                have hrel1 := cross_line_rel ((a.1 : ℚ), interp a.1 V)
                  ((b.1 : ℚ), interp b.1 V) f₂ f₁ p
                have hrel2 := cross_line_rel ((a.1 : ℚ), interp a.1 V)
                  ((b.1 : ℚ), interp b.1 V) g₂ g₁ p
                rw [hlineV f₂ hf₂V, hlineV f₁ hf₁V] at hrel1
                rw [hlineV g₂ hg₂V, hlineV g₁ hg₁V] at hrel2
                have hle : crossVal ((a.1 : ℚ), interp a.1 V) ((b.1 : ℚ), interp b.1 V) p ≤ 0 := by
                  nlinarith [hrel1, mul_nonpos_of_nonneg_of_nonpos (le_of_lt hQ) hup, hD1]
                have hge : 0 ≤ crossVal ((a.1 : ℚ), interp a.1 V) ((b.1 : ℚ), interp b.1 V) p := by
                  nlinarith [hrel2, mul_nonneg (le_of_lt hQ) hlow, hD2]
                exact le_antisymm hle hge
              have hba : b ≠ a := fun h => absurd (congrArg Prod.fst h) (ne_of_gt hab)
              have hcolS : collinearAll (a :: b :: t) = true := by
                rw [collinearAll_cons_cons t hba, List.all_eq_true]
                intro c hc
                apply decide_eq_true
                have hrel := cross_line_rel ((a.1 : ℚ), interp a.1 V)
                  ((b.1 : ℚ), interp b.1 V) a b c
                have ea := hsand a (List.mem_cons_self _ _)
                have eb := hsand b (List.mem_cons_of_mem _ (List.mem_cons_self _ _))
                have ec := hsand c hc
                have h0 : (((b.1 : ℚ), interp b.1 V).1 - ((a.1 : ℚ), interp a.1 V).1) *
                    crossVal a b c = 0 := by
                  rw [hrel, ea, eb, ec]
                  ring
                exact (mul_eq_zero.mp h0).resolve_left (ne_of_gt hQ)
              rw [hcolS] at hcol
              exact Bool.noConfusion hcol

/-- The hull of the interpolated envelope points is the original vertex list:
re-running `ConvexHull` + `argsort` on `(prices, np.interp(prices, hull))`
reproduces the same sorted vertex array. -/
lemma hull_interp_fixed {P R : List ℚ} (hnd : P.Nodup) (hlen : R.length = P.length)
    {V : List (ℚ × ℚ)} (hV : hullVerticesByPrice (P.zip R) = some V) :
    hullVerticesByPrice (P.zip (P.map fun x => interp x V)) = some V := by
  have hfst1 : (P.zip R).map Prod.fst = P := List.map_fst_zip P R hlen.ge
  have hnd1 : ((P.zip R).map Prod.fst).Nodup := by
    rw [hfst1]
    exact hnd
  obtain ⟨hincS, hdedup1, hperm1⟩ := sorted_incX_perm hnd1
  simp only [hullVerticesByPrice] at hV
  rw [hdedup1] at hV
  split at hV
  · exact Option.noConfusion hV
  · split at hV
    · exact Option.noConfusion hV
    · rename_i h3 hcol
      have hVdef : V = sortBy fstLt (lowerChain (sortBy lexLt (P.zip R)) ++
          (upperChain (sortBy lexLt (P.zip R))).filter
            (fun p => !((lowerChain (sortBy lexLt (P.zip R))).contains p))) :=
        (Option.some.inj hV).symm
      have hlen3 : 3 ≤ (sortBy lexLt (P.zip R)).length := not_lt.mp h3
      have hlen2 : 2 ≤ (sortBy lexLt (P.zip R)).length := le_trans (by norm_num) hlen3
      have hcolF : collinearAll (sortBy lexLt (P.zip R)) = false := by
        cases hcc : collinearAll (sortBy lexLt (P.zip R)) with
        | false => rfl
        | true => exact absurd hcc hcol
      have hchains := chains_preserved hincS hlen2 hVdef
      have hcolmap := collinearAll_map_interp hincS hlen3 hVdef hcolF
      -- the sorted interpolated point list is the pointwise image of the sorted list
      have hzipE : P.zip (P.map fun x => interp x V) =
          P.map fun x => ((x : ℚ), interp x V) := zip_map_self P
      have hfst2 : ((P.map fun x => ((x : ℚ), interp x V)).map Prod.fst) = P := by
        rw [List.map_map]
        exact map_fix fun q hq => rfl
      have hnd2 : ((P.zip (P.map fun x => interp x V)).map Prod.fst).Nodup := by
        rw [hzipE, hfst2]
        exact hnd
      obtain ⟨hincS2, hdedup2, hperm2⟩ := sorted_incX_perm hnd2
      have hzr : (P.zip R).map (fun q : ℚ × ℚ => (q.1, interp q.1 V)) =
          P.map fun x => ((x : ℚ), interp x V) := by
        have hcomp : (P.zip R).map (fun q : ℚ × ℚ => (q.1, interp q.1 V)) =
            ((P.zip R).map Prod.fst).map fun x => ((x : ℚ), interp x V) := by
          rw [List.map_map]
          rfl
        rw [hcomp, hfst1]
      have hmapPerm : ((sortBy lexLt (P.zip R)).map
          fun q : ℚ × ℚ => (q.1, interp q.1 V)).Perm
            (P.map fun x => ((x : ℚ), interp x V)) := by
        have h1 := hperm1.map fun q : ℚ × ℚ => (q.1, interp q.1 V)
        rw [hzr] at h1
        exact h1
      have hS2 : sortBy lexLt (P.zip (P.map fun x => interp x V)) =
          (sortBy lexLt (P.zip R)).map fun q : ℚ × ℚ => (q.1, interp q.1 V) := by
        refine eq_of_perm_IncX ?_ hincS2 (IncX_map_proj (g := fun x => interp x V) hincS)
        have h2 := hperm2
        nth_rewrite 2 [hzipE] at h2
        exact h2.trans hmapPerm.symm
      simp only [hullVerticesByPrice]
      rw [hdedup2, hS2]
      rw [if_neg (by rw [List.length_map]; exact h3)]
      rw [if_neg (by rw [hcolmap]; exact Bool.false_ne_true)]
      have hUeq : upperChain ((sortBy lexLt (P.zip R)).map
          fun q : ℚ × ℚ => (q.1, interp q.1 V)) = upperChain (sortBy lexLt (P.zip R)) := by
        rw [upperChain_eq, upperChain_eq, hchains.1]
      have hLeq : lowerChain ((sortBy lexLt (P.zip R)).map
          fun q : ℚ × ℚ => (q.1, interp q.1 V)) = lowerChain (sortBy lexLt (P.zip R)) := by
        rw [lowerChain_eq, lowerChain_eq, hchains.2]
      rw [hUeq, hLeq, ← hVdef]

lemma zip_self_all_tol (c : ℚ) (hc : 0 ≤ c) : ∀ l : List ℚ,
    (l.zip l).all (fun q => decide (|q.1 - q.2| ≤ c)) = true := by
  intro l
  induction l with
  | nil => rfl
  | cons a t ih =>
    rw [List.zip_cons_cons, List.all_cons, ih, Bool.and_true]
    apply decide_eq_true
    show |a - a| ≤ c
    rw [sub_self, abs_zero]
    exact hc

/-- C4: `make_convex` is idempotent.  On any dataset freshly constructed from
co-indexed price/demand arrays with pairwise-distinct prices, if the first
`make_convex` call succeeds then the second call also succeeds and returns an
*identical* revenue array — in particular every element agrees within `1e-8`.
(The first call replaces the revenue with the interpolation through the hull
vertices and recomputes the hull; by `hull_interp_fixed` that recomputation
returns the same vertex list, so the stored `hull_revenue` that the second
call copies into `revenue` is unchanged.) -/
theorem claim4_make_convex_idempotent (prices demands : List ℚ)
    (hnd : prices.Nodup) (hlen : demands.length = prices.length)
    (ds1 : Dataset) (n1 : ℕ)
    (h1 : make_convex (Dataset.init prices demands) = Except.ok (ds1, n1)) :
    ∃ ds2 n2, make_convex ds1 = Except.ok (ds2, n2) ∧ ds2.revenue = ds1.revenue ∧
      (ds2.revenue.zip ds1.revenue).all
        (fun q => decide (|q.1 - q.2| ≤ 1 / 100000000)) = true := by
  have hdataset : (Dataset.init prices demands).dataset =
      prices.zip (List.zipWith (· * ·) prices demands) := rfl
  have hRlen : (List.zipWith (· * ·) prices demands).length = prices.length := by
    rw [List.length_zipWith, hlen, min_self]
  cases hHV : hullVerticesByPrice (prices.zip (List.zipWith (· * ·) prices demands)) with
  | none =>
    exfalso
    simp only [make_convex, check_dataset_convexity_convex_hull, hdataset, hHV,
      Dataset.init, ite_self] at h1
    exact Except.noConfusion h1
  | some V =>
    have hHV2 : hullVerticesByPrice (prices.zip (prices.map fun x => interp x V)) = some V :=
      hull_interp_fixed hnd hRlen hHV
    simp only [make_convex, Dataset.init] at h1
    rw [if_pos (show (((none : Option (List (ℚ × ℚ))).isNone ||
      (none : Option (List ℚ)).isNone) = true) from rfl)] at h1
    simp only [check_dataset_convexity_convex_hull, hHV, hHV2] at h1
    injection h1 with hpair
    injection hpair with hds1 hn1
    subst hds1
    refine ⟨_, _, rfl, ?_, ?_⟩
    · simp only [make_convex, check_dataset_convexity_convex_hull, hHV2, ite_self]
    · simp only [make_convex, check_dataset_convexity_convex_hull, hHV2, ite_self]
      exact zip_self_all_tol _ (by norm_num) _

/-- The dataset produced by the first (successful) `make_convex` run on the
workflow scenario, used to instantiate the idempotence theorem concretely. -/
def claim4Ds1 : Dataset :=
  ((make_convex scenarioDataset).toOption.map Prod.fst).getD (Dataset.init [] [])

theorem claim4_witness :
    ∃ ds2 n2, make_convex claim4Ds1 = Except.ok (ds2, n2) ∧
      ds2.revenue = claim4Ds1.revenue ∧
      (ds2.revenue.zip claim4Ds1.revenue).all
        (fun q => decide (|q.1 - q.2| ≤ 1 / 100000000)) = true :=
  claim4_make_convex_idempotent scenarioPrices scenarioDemands (by decide) (by decide)
    claim4Ds1 7 (by decide)

end PriceModel
